import Mathlib

/-!
Verification of the core allocation loop of the backtracking register
allocator (files src/ion/process.rs and src/ion/stackmap.rs), by shallow
embedding into Lean.

Conventions of the embedding:
* A ProgPoint is its index: a natural number n with instruction n / 2 and
  position n % 2 (0 = Before, 1 = After).  ProgPoint::before(i) = 2*i,
  ProgPoint::after(i) = 2*i+1, next = +1, prev = -1.
* Spill weights are natural numbers (the spec's glossary: an integer proxy).
* Arenas (bundles, ranges, pregs, spillsets, vregs) are lists indexed by
  position; index types are plain naturals.  An invalid index / invalid
  PReg is modelled as `Option.none` where the source tests validity.
* The per-PReg BTreeMap keyed by the overlap comparator is modelled as a
  list of (CodeRange, Option Nat) entries kept in map order; a `none`
  value is a fixed reservation (LiveRangeIndex::invalid in the source).
-/

namespace RegAlloc

/- A ProgPoint is represented by its bit index, a plain natural number. -/

/-- Instruction of a ProgPoint (index >> 1 in the source). -/
def ppInst (p : Nat) : Nat := p / 2

/-- Position within the instruction: false = Before, true = After. -/
def ppIsAfter (p : Nat) : Bool := p % 2 = 1

/-- ProgPoint::before(inst). -/
def ppBefore (i : Nat) : Nat := 2 * i

/-- ProgPoint::after(inst). -/
def ppAfter (i : Nat) : Nat := 2 * i + 1

/-- ProgPoint::next. -/
def ppNext (p : Nat) : Nat := p + 1

/-- ProgPoint::prev (truncated at zero; the source would underflow-panic). -/
def ppPrev (p : Nat) : Nat := p - 1

/-- Half-open range [from, to) of ProgPoints (CodeRange in the source).
`from` is a Lean keyword, so the fields are `from_` and `to_`. -/
structure CodeRange where
  from_ : Nat
  to_ : Nat
deriving DecidableEq, Repr

/-- Two code ranges overlap: each starts before the other ends. -/
def CodeRange.overlaps (a b : CodeRange) : Prop :=
  a.from_ < b.to_ ∧ b.from_ < a.to_

instance : DecidablePred fun p : CodeRange × CodeRange => p.1.overlaps p.2 :=
  fun _ => by unfold CodeRange.overlaps; infer_instance

instance (a b : CodeRange) : Decidable (a.overlaps b) := by
  unfold CodeRange.overlaps; infer_instance

/-- The overlap comparator of LiveRangeKey: `a` is strictly less than `b`
when `a` ends at or before the start of `b` (`self.to <= other.from`). -/
def keyLt (a b : CodeRange) : Prop := a.to_ ≤ b.from_

instance (a b : CodeRange) : Decidable (keyLt a b) := by
  unfold keyLt; infer_instance

/-- An entry of a PReg's allocation map: key range and occupant live-range
index, `none` denoting a fixed (non-evictable) reservation. -/
abbrev BEntry := CodeRange × Option Nat

/-- Modelled from the spec: `btree.range(from_key..)` for the point key
[p, p) on the overlap-ordered map (data_structures.rs is not part of the
given sources).  Entries strictly less than the query key — those with
`to <= p` — are dropped from the front of the map order. -/
def seek (btree : List BEntry) (p : Nat) : List BEntry :=
  btree.dropWhile fun e => e.1.to_ ≤ p

/-- Modelled from the spec: insertion into the overlap-ordered map.  The
entry is placed before the first key not strictly less than it; an
overlapping ("equal") present key is replaced, as BTreeMap::insert does. -/
def btreeInsert (k : CodeRange) (v : Option Nat) : List BEntry → List BEntry
  | [] => [(k, v)]
  | e :: rest =>
    if e.1.to_ ≤ k.from_ then e :: btreeInsert k v rest
    else if e.1.from_ ≥ k.to_ then (k, v) :: e :: rest
    else (k, v) :: rest

/-- Modelled from the spec: removal of the entry equal (= overlapping)
to the key from the overlap-ordered map. -/
def btreeRemove (k : CodeRange) : List BEntry → List BEntry
  | [] => []
  | e :: rest =>
    if e.1.to_ ≤ k.from_ then e :: btreeRemove k rest
    else if e.1.from_ ≥ k.to_ then e :: rest
    else rest

/-! ## Operand / use / arena records -/

/-- Operand kind (Def or Use). -/
inductive OpKind where
  | defOp
  | useOp
deriving DecidableEq, Repr

/-- Operand constraint. -/
inductive OpConstraint where
  | anyC
  | regC
  | stackC
  | fixedRegC (preg : Nat)
  | fixedStackC (preg : Nat)
  | reuseC (idx : Nat)
deriving DecidableEq, Repr

/-- A Use record: operand kind and constraint, position, weight. -/
structure IonUse where
  kind : OpKind
  constraint : OpConstraint
  pos : Nat
  weight : Nat
deriving DecidableEq, Repr

/-- LiveRange record.  `vreg` uses `none` for the invalid index (the
source tests its validity); `bundle` is always assigned before being read
in the given sources, so it is a plain index initialized to 0.
`startsAtDef` is the StartsAtDef flag. -/
structure LiveRangeData where
  range : CodeRange
  vreg : Option Nat
  bundle : Nat
  uses : List IonUse
  usesSpillWeight : Nat
  startsAtDef : Bool
deriving DecidableEq, Repr

/-- Entry of a bundle's (or vreg's) range list. -/
structure LREntry where
  range : CodeRange
  index : Nat
deriving DecidableEq, Repr

/-- An Allocation: none, a register, or a stack slot. -/
inductive Alloc where
  | noneA
  | regA (preg : Nat)
  | stackA (slot : Nat)
deriving DecidableEq, Repr

/-- Allocation::as_reg. -/
def Alloc.asReg : Alloc → Option Nat
  | .regA p => some p
  | _ => none

/-- Allocation::as_stack. -/
def Alloc.asStack : Alloc → Option Nat
  | .stackA s => some s
  | _ => none

/-- LiveBundle record with its cached properties. -/
structure LiveBundleData where
  ranges : List LREntry
  spillset : Nat
  allocation : Alloc
  prio : Nat
  cachedSpillWeight : Nat
  cachedMinimal : Bool
  cachedFixed : Bool
  cachedStack : Bool
deriving DecidableEq, Repr

/-- Default-initialized bundle, as produced by create_bundle. -/
def newBundle : LiveBundleData :=
  { ranges := [], spillset := 0, allocation := .noneA, prio := 0,
    cachedSpillWeight := 0, cachedMinimal := false, cachedFixed := false,
    cachedStack := false }

/-- Default-initialized live range over `r`, as produced by create_liverange. -/
def newLiveRange (r : CodeRange) : LiveRangeData :=
  { range := r, vreg := none, bundle := 0, uses := [],
    usesSpillWeight := 0, startsAtDef := false }

/-- Physical register record. -/
structure PRegData where
  isStack : Bool
  allocations : List BEntry
deriving DecidableEq, Repr

/-- Spillset record. -/
structure SpillsetData where
  classOf : Nat
  regHint : Option Nat
  required : Bool
  spillBundle : Option Nat
deriving DecidableEq, Repr

/-- VReg record: its (lazily maintained) list of owned live ranges. -/
structure VRegData where
  ranges : List LREntry
deriving DecidableEq, Repr

/-- The allocator state (the fields of Env touched by the given sources).
Modelled from the spec: the allocation queue is a max-heap whose pop order
is irrelevant to the claims, so only its insertion log (bundle, priority,
hint) is kept. -/
structure IonState where
  bundles : List LiveBundleData
  ranges : List LiveRangeData
  pregs : List PRegData
  spillsets : List SpillsetData
  vregs : List VRegData
  allocationQueue : List (Nat × Nat × Option Nat)
  spilledBundles : List Nat
deriving DecidableEq, Repr

/-- Arena read with default (the source indexes panics out of range; all
claims are about in-range indices). -/
def IonState.bundle (st : IonState) (b : Nat) : LiveBundleData :=
  st.bundles.getD b newBundle

def IonState.lrange (st : IonState) (i : Nat) : LiveRangeData :=
  st.ranges.getD i (newLiveRange ⟨0, 0⟩)

def IonState.preg (st : IonState) (p : Nat) : PRegData :=
  st.pregs.getD p ⟨false, []⟩

def IonState.spillset (st : IonState) (s : Nat) : SpillsetData :=
  st.spillsets.getD s ⟨0, none, false, none⟩

def IonState.vreg (st : IonState) (v : Nat) : VRegData :=
  st.vregs.getD v ⟨[]⟩

/-- Update the bundle arena at an index. -/
def IonState.setBundle (st : IonState) (b : Nat) (f : LiveBundleData → LiveBundleData) : IonState :=
  { st with bundles := st.bundles.set b (f (st.bundle b)) }

def IonState.setLRange (st : IonState) (i : Nat) (f : LiveRangeData → LiveRangeData) : IonState :=
  { st with ranges := st.ranges.set i (f (st.lrange i)) }

def IonState.setPreg (st : IonState) (p : Nat) (f : PRegData → PRegData) : IonState :=
  { st with pregs := st.pregs.set p (f (st.preg p)) }

def IonState.setSpillset (st : IonState) (s : Nat) (f : SpillsetData → SpillsetData) : IonState :=
  { st with spillsets := st.spillsets.set s (f (st.spillset s)) }

def IonState.setVreg (st : IonState) (v : Nat) (f : VRegData → VRegData) : IonState :=
  { st with vregs := st.vregs.set v (f (st.vreg v)) }

/-- cached_spill_weight of a bundle. -/
def IonState.bundleSpillWeight (st : IonState) (b : Nat) : Nat :=
  (st.bundle b).cachedSpillWeight

/-- minimal_bundle. -/
def IonState.minimalBundle (st : IonState) (b : Nat) : Bool :=
  (st.bundle b).cachedMinimal

/-! ## try_to_allocate_bundle_to_reg (process.rs lines 56-211)

The probe walks the bundle's range list and the PReg map concurrently.
The map iterator is a suffix of the map order; re-seeking after 16 skips
(source lines 119-131) jumps to `seek btree range.from`.  On maps kept in
order with pairwise non-overlapping keys, after such a re-seek no entry of
the iterator is strictly less than the current range key, so at most one
re-seek can happen per bundle range; the embedding therefore has one copy
of the loop that may re-seek (`probeRangeR`) handing over to a copy that
treats a (then impossible) further 16-skip state as the plain skips it
amounts to (`probeRangeNR`). -/

/-- Result of try_to_allocate_bundle_to_reg. -/
inductive AllocRegResult where
  | Allocated (alloc : Alloc)
  | Conflict (bundles : List Nat) (firstPoint : Nat)
  | ConflictWithFixed (maxCost : Nat) (point : Nat)
  | ConflictHighCost
deriving DecidableEq, Repr

/-- The probe accumulator: conflict list (insertion order), the dedup set,
running max conflict weight, first conflict point. -/
structure ProbeAcc where
  conflicts : List Nat
  conflictSet : List Nat
  maxW : Nat
  firstConflict : Option Nat
deriving DecidableEq, Repr

/-- Set first_conflict if not yet set (source lines 178-183). -/
def setFirst (acc : ProbeAcc) (point : Nat) : ProbeAcc :=
  match acc.firstConflict with
  | some _ => acc
  | none => { acc with firstConflict := some point }

/-- Record a conflict with the bundle `cb` at `point` (source lines
157-183): dedup by conflict_set, track the running max weight, and abort
with `none` (ConflictHighCost) when it exceeds max_allowable_cost. -/
def recordConflict (st : IonState) (maxCost : Option Nat) (acc : ProbeAcc)
    (cb : Nat) (point : Nat) : Option ProbeAcc :=
  if acc.conflictSet.contains cb then some (setFirst acc point)
  else
    let maxW := max acc.maxW (st.bundleSpillWeight cb)
    let acc' : ProbeAcc :=
      { acc with conflicts := acc.conflicts ++ [cb],
                 conflictSet := cb :: acc.conflictSet, maxW := maxW }
    match maxCost with
    | some c => if maxW > c then none else some (setFirst acc' point)
    | none => some (setFirst acc' point)

/-- Outcome of the inner 'alloc loop for one bundle range. -/
inductive RangeStep where
  | next (acc : ProbeAcc) (iter : List BEntry)
  | stopAll (acc : ProbeAcc)
  | fixedC (w : Nat) (p : Nat)
  | highC
deriving DecidableEq, Repr

/-- The 'alloc loop after its one possible re-seek for this range: a
16-skip state cannot recur on an in-order map and is treated as the skip
it amounts to. -/
def probeRangeNR (st : IonState) (maxCost : Option Nat) (key : CodeRange) :
    List BEntry → Nat → ProbeAcc → RangeStep
  | [], _, acc => .stopAll acc
  | e :: rest, skips, acc =>
    if keyLt e.1 key then
      probeRangeNR st maxCost key rest (if skips + 1 ≥ 16 then 0 else skips + 1) acc
    else if key.to_ ≤ e.1.from_ then .next acc (e :: rest)
    else
      match e.2 with
      | none => .fixedC acc.maxW e.1.from_
      | some lr =>
        match recordConflict st maxCost acc (st.lrange lr).bundle (max e.1.from_ key.from_) with
        | none => .highC
        | some acc' => probeRangeNR st maxCost key rest 0 acc'

/-- The 'alloc loop for one bundle range (source lines 105-192): skip map
entries strictly before the range, re-seeking the iterator at the range's
start after 16 skips; stop all ranges when the map iterator is exhausted;
move to the next range when the next entry is beyond this range; otherwise
record a conflict or return the fixed-reservation conflict. -/
def probeRangeR (st : IonState) (maxCost : Option Nat) (btree : List BEntry)
    (key : CodeRange) :
    List BEntry → Nat → ProbeAcc → RangeStep
  | [], _, acc => .stopAll acc
  | e :: rest, skips, acc =>
    if keyLt e.1 key then
      if skips + 1 ≥ 16 then
        probeRangeNR st maxCost key (seek btree key.from_) 0 acc
      else
        probeRangeR st maxCost btree key rest (skips + 1) acc
    else if key.to_ ≤ e.1.from_ then .next acc (e :: rest)
    else
      match e.2 with
      | none => .fixedC acc.maxW e.1.from_
      | some lr =>
        match recordConflict st maxCost acc (st.lrange lr).bundle (max e.1.from_ key.from_) with
        | none => .highC
        | some acc' => probeRangeR st maxCost btree key rest 0 acc'

/-- Outcome of the whole probe ('ranges loop). -/
inductive ProbeResult where
  | done (acc : ProbeAcc)
  | fixedRes (w : Nat) (p : Nat)
  | highRes
deriving DecidableEq, Repr

/-- The 'ranges loop (source line 100): run the 'alloc loop for each
bundle range in order, carrying the map iterator across ranges. -/
def probeRanges (st : IonState) (maxCost : Option Nat) (btree : List BEntry) :
    List LREntry → List BEntry → ProbeAcc → ProbeResult
  | [], _, acc => .done acc
  | r :: rs, iter, acc =>
    match probeRangeR st maxCost btree r.range iter 0 acc with
    | .stopAll acc' => .done acc'
    | .next acc' iter' => probeRanges st maxCost btree rs iter' acc'
    | .fixedC w p => .fixedRes w p
    | .highC => .highRes

/-- try_to_allocate_bundle_to_reg.  Returns the result and the state after
the call; the state is mutated only on the Allocated path (allocation set
to the PReg, every bundle range inserted into the PReg map). -/
def tryToAllocateBundleToReg (st : IonState) (bundle : Nat) (reg : Nat)
    (maxAllowableCost : Option Nat) : AllocRegResult × IonState :=
  let bundleRanges := (st.bundle bundle).ranges
  let startPos := (bundleRanges.headD ⟨⟨0, 0⟩, 0⟩).range.from_
  let btree := (st.preg reg).allocations
  match probeRanges st maxAllowableCost btree bundleRanges (seek btree startPos)
      ⟨[], [], 0, none⟩ with
  | .fixedRes w p => (.ConflictWithFixed w p, st)
  | .highRes => (.ConflictHighCost, st)
  | .done acc =>
    if acc.conflicts ≠ [] then (.Conflict acc.conflicts (acc.firstConflict.getD 0), st)
    else
      let st1 := st.setBundle bundle fun b => { b with allocation := .regA reg }
      let st2 := st1.setPreg reg fun pr =>
        { pr with allocations :=
            (bundleRanges.foldl (fun t e => btreeInsert e.range (some e.index) t)
              pr.allocations) }
      (.Allocated (.regA reg), st2)

/-! ## evict_bundle and property recomputation (process.rs lines 213-391) -/

/-- evict_bundle (lines 213-242): if the bundle holds a register, clear
its allocation, remove each of its ranges from that PReg's map, and
re-insert it into the allocation queue with its priority and an invalid
hint; otherwise return with no effect. -/
def evictBundle (st : IonState) (bundle : Nat) : IonState :=
  match (st.bundle bundle).allocation.asReg with
  | none => st
  | some preg =>
    let st1 := st.setBundle bundle fun b => { b with allocation := .noneA }
    let st2 := st1.setPreg preg fun pr =>
      { pr with allocations :=
          ((st1.bundle bundle).ranges.foldl (fun t e => btreeRemove e.range t)
            pr.allocations) }
    let prio := (st2.bundle bundle).prio
    { st2 with allocationQueue := st2.allocationQueue ++ [(bundle, prio, none)] }

/-- maximum_spill_weight_in_bundle_set (lines 248-261). -/
def maximumSpillWeightInBundleSet (st : IonState) (bundles : List Nat) : Nat :=
  (bundles.map st.bundleSpillWeight).foldl max 0

/-- Modelled from the spec: the three spill-weight constants live in
data_structures.rs, outside the given sources; only the ordering
MINIMAL_FIXED > MINIMAL > BUNDLE_MAX_NORMAL ≥ 0 is specified. -/
def BUNDLE_MAX_NORMAL_SPILL_WEIGHT : Nat := 2 ^ 24

def MINIMAL_BUNDLE_SPILL_WEIGHT : Nat := 2 ^ 25

def MINIMAL_FIXED_BUNDLE_SPILL_WEIGHT : Nat := 2 ^ 26

/-- Modelled from the spec: compute_bundle_prio is defined outside the
given sources; §4.1 says priority is an integer derived from total live
length, so it is the sum of the bundle's range lengths here. -/
def computeBundlePrio (st : IonState) (bundle : Nat) : Nat :=
  ((st.bundle bundle).ranges.map fun e => e.range.to_ - e.range.from_).sum

/-- recompute_bundle_properties (lines 263-348).  The source's early exit
from the use scan once both flags are set does not change the computed
flags and is not modelled. -/
def recomputeBundleProperties (st : IonState) (bundle : Nat) : IonState :=
  let bundledata := st.bundle bundle
  let firstRange := (bundledata.ranges.headD ⟨⟨0, 0⟩, 0⟩).index
  let firstRangeData := st.lrange firstRange
  let prio := computeBundlePrio st bundle
  let mfs : Bool × Bool × Bool :=
    if firstRangeData.vreg = none then (true, true, false)
    else
      let fixed := firstRangeData.uses.any fun u =>
        match u.constraint with
        | .fixedRegC _ => true
        | _ => false
      let stackF := firstRangeData.uses.any fun u => u.constraint = OpConstraint.stackC
      let bundleStart := (bundledata.ranges.headD ⟨⟨0, 0⟩, 0⟩).range.from_
      let bundleEnd := (bundledata.ranges.getLastD ⟨⟨0, 0⟩, 0⟩).range.to_
      (ppInst bundleStart == ppInst (ppPrev bundleEnd), fixed, stackF)
  let minimal := mfs.1
  let fixed := mfs.2.1
  let stackF := mfs.2.2
  let spillWeight :=
    if minimal then
      if fixed then MINIMAL_FIXED_BUNDLE_SPILL_WEIGHT else MINIMAL_BUNDLE_SPILL_WEIGHT
    else
      let total := (bundledata.ranges.map fun e => (st.lrange e.index).usesSpillWeight).sum
      if prio > 0 then min BUNDLE_MAX_NORMAL_SPILL_WEIGHT (total / prio) else 0
  st.setBundle bundle fun b =>
    { b with prio := prio, cachedSpillWeight := spillWeight, cachedMinimal := minimal,
             cachedFixed := fixed, cachedStack := stackF }

/-- recompute_range_properties (lines 354-371): recompute the use weight
sum, and set (never clear) StartsAtDef when the first use is a Def. -/
def recomputeRangeProperties (st : IonState) (range : Nat) : IonState :=
  st.setLRange range fun r =>
    { r with
      usesSpillWeight := (r.uses.map IonUse.weight).sum,
      startsAtDef :=
        match r.uses with
        | u :: _ => if u.kind = OpKind.defOp then true else r.startsAtDef
        | [] => r.startsAtDef }

/-- create_liverange: append a fresh live range to the arena. -/
def createLiveRange (st : IonState) (r : CodeRange) : Nat × IonState :=
  (st.ranges.length, { st with ranges := st.ranges ++ [newLiveRange r] })

/-- create_bundle: append a fresh bundle to the arena. -/
def createBundle (st : IonState) : Nat × IonState :=
  (st.bundles.length, { st with bundles := st.bundles ++ [newBundle] })

/-- get_or_create_spill_bundle (lines 373-391). -/
def getOrCreateSpillBundle (st : IonState) (bundle : Nat) (createIfAbsent : Bool) :
    Option Nat × IonState :=
  let ssidx := (st.bundle bundle).spillset
  match (st.spillset ssidx).spillBundle with
  | some idx => (some idx, st)
  | none =>
    if createIfAbsent then
      let ci := createBundle st
      let idx := ci.1
      let st1 := ci.2
      let st2 := st1.setSpillset ssidx fun s => { s with spillBundle := some idx }
      let st3 := st2.setBundle idx fun b => { b with spillset := ssidx }
      (some idx, { st3 with spilledBundles := st3.spilledBundles ++ [idx] })
    else (none, st)

/-! ## split_and_requeue_bundle (process.rs lines 393-727) -/

/-- First use position of the bundle, scanning ranges in order and taking
the first use of the first range that has any (source lines 431-437). -/
def firstUsePos (st : IonState) (bundle : Nat) : Option Nat :=
  (st.bundle bundle).ranges.findSome? fun entry =>
    ((st.lrange entry.index).uses.head?).map IonUse.pos

/-- Normalization of the split point (source lines 413-472): a split at
the bundle start peels off the first use (or one instruction when there
are no uses); otherwise a point at an After position advances to the next
ProgPoint, backing off two ProgPoints if that reaches the bundle end. -/
def normalizeSplitPoint (st : IonState) (bundle : Nat) (splitAt : Nat) : Nat :=
  let bundleStart := ((st.bundle bundle).ranges.headD ⟨⟨0, 0⟩, 0⟩).range.from_
  let bundleEnd := ((st.bundle bundle).ranges.getLastD ⟨⟨0, 0⟩, 0⟩).range.to_
  if splitAt = bundleStart then
    match firstUsePos st bundle with
    | some pos =>
      if ppInst pos = ppInst bundleStart then ppBefore (ppInst pos + 1)
      else ppBefore (ppInst pos)
    | none => ppBefore (ppInst bundleStart + 1)
  else
    let s1 := if ppIsAfter splitAt then ppNext splitAt else splitAt
    if s1 ≥ bundleEnd then ppPrev (ppPrev s1) else s1

/-- The scan for the last live-range entry of the old bundle and the first
of the new bundle (source lines 482-493). -/
def partitionIdx (splitAt : Nat) : List LREntry → Nat → Nat → Nat → Nat × Nat
  | [], _, last, first => (last, first)
  | e :: rest, i, last, first =>
    let p := if splitAt > e.range.from_ then (i, i) else (last, first)
    if splitAt < e.range.to_ then (p.1, i)
    else partitionIdx splitAt rest (i + 1) p.1 p.2

/-- Cutting the straddling middle live range (source lines 518-560): when
the head of the new list starts before the split point, create a fresh
live range [splitAt, old.to), migrate the uses at or after the split point
to it, truncate the original range, recompute both ranges' properties and
lazily append the new range to the VReg's list. -/
def splitMiddle (st : IonState) (bundle : Nat) (splitAt : Nat) (lastIdx : Nat) :
    List LREntry → IonState × List LREntry
  | [] => (st, [])
  | h :: t =>
    if splitAt > h.range.from_ then
      let origLr := h.index
      let cl := createLiveRange st ⟨splitAt, h.range.to_⟩
      let newLr := cl.1
      let st1 := cl.2
      let st2 := st1.setLRange newLr fun r => { r with vreg := (st1.lrange origLr).vreg }
      let k := (((st2.lrange origLr).uses.findIdx? fun u => decide (u.pos ≥ splitAt)).getD
        (st2.lrange origLr).uses.length)
      let restUses := (st2.lrange origLr).uses.drop k
      let st3 := st2.setLRange newLr fun r => { r with uses := restUses }
      let st4 := st3.setLRange origLr fun r => { r with uses := r.uses.take k }
      let st5 := recomputeRangeProperties st4 origLr
      let st6 := recomputeRangeProperties st5 newLr
      let newHead : LREntry := ⟨(st6.lrange newLr).range, newLr⟩
      let st7 := st6.setLRange origLr fun r => { r with range := ⟨r.range.from_, splitAt⟩ }
      let st8 := st7.setBundle bundle fun b =>
        { b with ranges := b.ranges.set lastIdx ⟨(st7.lrange origLr).range, origLr⟩ }
      let vreg := (st8.lrange newLr).vreg.getD 0
      let st9 := st8.setVreg vreg fun v =>
        { v with ranges := v.ranges ++ [⟨(st8.lrange newLr).range, newLr⟩] }
      (st9, newHead :: t)
    else (st, h :: t)

/-- Tail trimming of the old bundle (source lines 577-643).  The source
loop pops one range per iteration; the fuel is one more than the range
count at entry, which is never exhausted. -/
def trimTail (st : IonState) (bundle : Nat) : Nat → IonState
  | 0 => st
  | fuel + 1 =>
    match (st.bundle bundle).ranges.getLast? with
    | none => st
    | some entry =>
      let lrEnd := entry.range.to_
      let vreg := (st.lrange entry.index).vreg.getD 0
      match ((st.lrange entry.index).uses.getLast?).map IonUse.pos with
      | none =>
        let gs := getOrCreateSpillBundle st bundle true
        let spill := gs.1.getD 0
        let st1 := gs.2
        let st2 := st1.setBundle spill fun b => { b with ranges := b.ranges ++ [entry] }
        let st3 := st2.setBundle bundle fun b => { b with ranges := b.ranges.dropLast }
        let st4 := st3.setLRange entry.index fun r => { r with bundle := spill }
        trimTail st4 bundle fuel
      | some lastUse =>
        let split := ppBefore (ppInst lastUse + 1)
        if split < lrEnd then
          let gs := getOrCreateSpillBundle st bundle true
          let spill := gs.1.getD 0
          let st1 := gs.2
          let st2 := st1.setBundle bundle fun b =>
            { b with ranges := (b.ranges.set (b.ranges.length - 1)
                ⟨⟨entry.range.from_, split⟩, entry.index⟩) }
          let st3 := st2.setLRange entry.index fun r =>
            { r with range := ⟨r.range.from_, split⟩ }
          let cl := createLiveRange st3 ⟨split, lrEnd⟩
          let emptyLr := cl.1
          let st4 := cl.2
          let st5 := st4.setBundle spill fun b =>
            { b with ranges := b.ranges ++ [⟨⟨split, lrEnd⟩, emptyLr⟩] }
          let st6 := st5.setLRange emptyLr fun r => { r with bundle := spill }
          st6.setVreg vreg fun v => { v with ranges := v.ranges ++ [⟨⟨split, lrEnd⟩, emptyLr⟩] }
        else st

/-- Head trimming of the new bundle (source lines 644-713), symmetric to
the tail trimming except that a range whose StartsAtDef flag is set is
never trimmed. -/
def trimHead (st : IonState) (newBundle : Nat) : Nat → IonState
  | 0 => st
  | fuel + 1 =>
    match (st.bundle newBundle).ranges.head? with
    | none => st
    | some entry =>
      if (st.lrange entry.index).startsAtDef then st
      else
        let start := entry.range.from_
        let vreg := (st.lrange entry.index).vreg.getD 0
        match ((st.lrange entry.index).uses.head?).map IonUse.pos with
        | none =>
          let gs := getOrCreateSpillBundle st newBundle true
          let spill := gs.1.getD 0
          let st1 := gs.2
          let st2 := st1.setBundle spill fun b => { b with ranges := b.ranges ++ [entry] }
          let st3 := st2.setBundle newBundle fun b => { b with ranges := b.ranges.drop 1 }
          let st4 := st3.setLRange entry.index fun r => { r with bundle := spill }
          trimHead st4 newBundle fuel
        | some firstUse =>
          let split := ppBefore (ppInst firstUse)
          if split > start then
            let gs := getOrCreateSpillBundle st newBundle true
            let spill := gs.1.getD 0
            let st1 := gs.2
            let st2 := st1.setBundle newBundle fun b =>
              { b with ranges := b.ranges.set 0 ⟨⟨split, entry.range.to_⟩, entry.index⟩ }
            let st3 := st2.setLRange entry.index fun r =>
              { r with range := ⟨split, r.range.to_⟩ }
            let cl := createLiveRange st3 ⟨start, split⟩
            let emptyLr := cl.1
            let st4 := cl.2
            let st5 := st4.setBundle spill fun b =>
              { b with ranges := b.ranges ++ [⟨⟨start, split⟩, emptyLr⟩] }
            let st6 := st5.setLRange emptyLr fun r => { r with bundle := spill }
            st6.setVreg vreg fun v => { v with ranges := v.ranges ++ [⟨⟨start, split⟩, emptyLr⟩] }
          else st

/-- split_and_requeue_bundle (lines 393-727): normalize the split point,
partition the range list, cut the straddling range, move the suffix into a
fresh bundle, trim use-free margins into the spill bundle, and requeue the
non-empty halves with the register hint.  The stats counters of the source
are not modelled. -/
def splitAndRequeueBundle (st : IonState) (bundle : Nat) (splitAtRaw : Nat)
    (regHint : Option Nat) : IonState :=
  let spillset := (st.bundle bundle).spillset
  let splitAt := normalizeSplitPoint st bundle splitAtRaw
  let pi := partitionIdx splitAt (st.bundle bundle).ranges 0 0 0
  let lastOld := pi.1
  let firstNew := pi.2
  let newLrList0 := (st.bundle bundle).ranges.drop firstNew
  let st1 := st.setBundle bundle fun b => { b with ranges := b.ranges.take (lastOld + 1) }
  let sm := splitMiddle st1 bundle splitAt lastOld newLrList0
  let st2 := sm.1
  let newLrList := sm.2
  let cb := createBundle st2
  let newBundle := cb.1
  let st3 := cb.2
  let st4 := st3.setBundle newBundle fun b => { b with spillset := spillset }
  let st5 := newLrList.foldl
    (fun s e => s.setLRange e.index fun r => { r with bundle := newBundle }) st4
  let st6 := st5.setBundle newBundle fun b => { b with ranges := newLrList }
  let st7 := trimTail st6 bundle ((st6.bundle bundle).ranges.length + 1)
  let st8 := trimHead st7 newBundle ((st7.bundle newBundle).ranges.length + 1)
  let st9 :=
    if (st8.bundle bundle).ranges.length > 0 then
      let r := recomputeBundleProperties st8 bundle
      { r with allocationQueue := r.allocationQueue ++ [(bundle, (r.bundle bundle).prio, regHint)] }
    else st8
  if (st9.bundle newBundle).ranges.length > 0 then
    let r := recomputeBundleProperties st9 newBundle
    { r with allocationQueue :=
        r.allocationQueue ++ [(newBundle, (r.bundle newBundle).prio, regHint)] }
  else st9

/-! ## process_bundle (process.rs lines 729-1062)

The driver consumes several collaborators that are outside the given
sources: compute_requirement (requirement.rs), RegTraversalIter, the CFG
info maps, MachineEnv's class register lists, and
spill_weight_from_constraint.  They are modelled from the spec as fields
of a context record; the claims hold for every instantiation of it. -/

/-- Requirement as returned by compute_requirement. -/
inductive Requirement where
  | fixedRegR (preg : Nat)
  | fixedStackR (preg : Nat)
  | registerR
  | stackR
  | anyR
deriving DecidableEq, Repr

/-- Modelled from the spec: external collaborators of process_bundle.
`req` is the compute_requirement outcome (error = conflict at a point);
`travIter class hint1 hint2 offset fixed` is the RegTraversalIter output;
`moveCostAt d` is spill_weight_from_constraint(Reg, d, is_def) as an
integer; the other fields are the CFG and machine-environment maps. -/
structure ProcessCtx where
  req : Except Nat Requirement
  travIter : Nat → Option Nat → Option Nat → Nat → Option Nat → List Nat
  insnBlock : Nat → Nat
  approxLoopDepth : Nat → Nat
  blockEntry : Nat → Nat
  numInsts : Nat
  preferredRegsByClass : Nat → List Nat
  nonPreferredRegsByClass : Nat → List Nat
  moveCostAt : Nat → Nat

/-- Result of process_bundle: success, the terminal TooManyLiveRegs
error, or a debug assertion / panic (internal invariant violation). -/
inductive PBResult where
  | ok
  | errTooManyLiveRegs
  | invariantViolation
deriving DecidableEq, Repr

/-- Hint selection (source lines 736-743): the queue hint if valid, else
the spillset hint, dropped when it names a stack-class PReg. -/
def pbHintReg (st : IonState) (bundle : Nat) (regHint : Option Nat) : Option Nat :=
  let h := match regHint with
    | some r => some r
    | none => (st.spillset (st.bundle bundle).spillset).regHint
  match h with
  | some r => if (st.preg r).isStack then none else some r
  | none => none

/-- Outcome of the register probe loop (source lines 829-916). -/
inductive ProbeOutcome where
  | allocatedP (preg : Nat) (st : IonState)
  | failedP (evict : Option (Nat × List Nat)) (splitCost : Option Nat)
      (splitPoint : Nat) (splitReg : Option Nat)
deriving DecidableEq

/-- The register probe loop: try each candidate PReg in turn with
max_allowable_cost = max of both current best costs when both exist,
tracking the lowest-cost evictable conflict set and the lowest-cost split
candidate (cost, point, register). -/
def probePhase (ctx : ProcessCtx) (st : IonState) (bundle : Nat) :
    List Nat → Option (Nat × List Nat) → Option Nat → Nat → Option Nat → ProbeOutcome
  | [], evict, splitCost, splitPoint, splitReg =>
      .failedP evict splitCost splitPoint splitReg
  | preg :: rest, evict, splitCost, splitPoint, splitReg =>
    let scanLimitCost := match evict, splitCost with
      | some e, some s => some (max e.1 s)
      | _, _ => none
    match tryToAllocateBundleToReg st bundle preg scanLimitCost with
    | (.Allocated _, st') => .allocatedP preg st'
    | (.Conflict bundles point, _) =>
      let conflictCost := maximumSpillWeightInBundleSet st bundles
      let evict' := match evict with
        | none => some (conflictCost, bundles)
        | some e => if conflictCost < e.1 then some (conflictCost, bundles) else some e
      let moveCost := ctx.moveCostAt (ctx.approxLoopDepth (ctx.insnBlock (ppInst point)))
      let upd : Option Nat × Nat × Option Nat := match splitCost with
        | none => (some (conflictCost + moveCost), point, some preg)
        | some c =>
          if conflictCost + moveCost < c then (some (conflictCost + moveCost), point, some preg)
          else (some c, splitPoint, splitReg)
      probePhase ctx st bundle rest evict' upd.1 upd.2.1 upd.2.2
    | (.ConflictWithFixed maxCost point, _) =>
      let moveCost := ctx.moveCostAt (ctx.approxLoopDepth (ctx.insnBlock (ppInst point)))
      let upd : Option Nat × Nat × Option Nat := match splitCost with
        | none => (some (maxCost + moveCost), point, some preg)
        | some c =>
          if maxCost + moveCost < c then (some (maxCost + moveCost), point, some preg)
          else (some c, splitPoint, splitReg)
      probePhase ctx st bundle rest evict upd.1 upd.2.1 upd.2.2
    | (.ConflictHighCost, _) =>
      probePhase ctx st bundle rest evict splitCost splitPoint splitReg

/-- The occupant count of one PReg map over the bundle's first range
(source lines 969-988): skip entries ending at or before the range start,
stop at the first entry starting at or after the range end, and count
minimal-bundle occupants and fixed reservations. -/
def scanOccupants (st : IonState) (range : CodeRange) : List BEntry → Nat × Nat
  | [] => (0, 0)
  | (key, lr) :: rest =>
    if key.to_ ≤ range.from_ then scanOccupants st range rest
    else if key.from_ ≥ range.to_ then (0, 0)
    else
      let p := scanOccupants st range rest
      match lr with
      | some l => if st.minimalBundle (st.lrange l).bundle then (p.1 + 1, p.2) else p
      | none => (p.1, p.2 + 1)

/-- The too-many-live-registers detection (source lines 953-999): scan
every PReg of the class (preferred then non-preferred), total the minimal
and fixed occupants over the bundle's first range, and compare with the
number of registers in the class. -/
def tooManyCheck (st : IonState) (ctx : ProcessCtx) (classOf : Nat) (range : CodeRange) : Bool :=
  let pregsList := ctx.preferredRegsByClass classOf ++ ctx.nonPreferredRegsByClass classOf
  let counts := pregsList.foldl
    (fun acc preg =>
      let s := scanOccupants st range (seek (st.preg preg).allocations (ppPrev range.from_))
      (acc.1 + s.1, acc.2 + s.2))
    (0, 0)
  counts.1 + counts.2 ≥ pregsList.length

/-- The loop-hoist adjustment of the split point (source lines 1035-1048):
when the chosen split point sits in a deeper loop than the bundle start,
move it to the entry of the first deeper block between them. -/
def hoistSplit (ctx : ProcessCtx) (bundleStartDepth : Nat) (loBlock hiBlock : Nat)
    (splitAt : Nat) : Nat :=
  match (List.range' loBlock (hiBlock + 1 - loBlock)).find?
      (fun blk => decide (bundleStartDepth < ctx.approxLoopDepth blk)) with
  | some blk => ctx.blockEntry blk
  | none => splitAt

/-- The split point chosen by the split branch (source lines 1027-1048):
the lowest-cost split conflict point clamped to the bundle start, then
loop-hoisted by `hoistSplit` when it sits in a deeper loop. -/
def splitPointAfterHoist (ctx : ProcessCtx) (st : IonState) (bundle : Nat)
    (splitPoint : Nat) : Nat :=
  let bundleStart := ((st.bundle bundle).ranges.headD ⟨⟨0, 0⟩, 0⟩).range.from_
  let splitAt0 := max splitPoint bundleStart
  let bundleStartDepth := ctx.approxLoopDepth (ctx.insnBlock (ppInst bundleStart))
  let splitAtDepth := ctx.approxLoopDepth (ctx.insnBlock (ppInst splitAt0))
  if splitAtDepth > bundleStartDepth then
    hoistSplit ctx bundleStartDepth (ctx.insnBlock (ppInst bundleStart) + 1)
      (ctx.insnBlock (ppInst splitAt0)) splitAt0
  else splitAt0

/-- The decision outcome after a failed probe. -/
inductive PBDecision where
  | tooMany
  | violation
  | splitDec (pt : Nat) (reg : Option Nat)
  | evictDec (evictSet : List Nat)
deriving DecidableEq, Repr

/-- The post-probe decision of the attempts loop (source lines 934-1060):
the debug assertion that an option exists, the minimal-bundle
too-many-live-registers detection, the split-versus-evict choice with the
crucial "our weight ≤ evict cost chooses split", and otherwise eviction of
the lowest-cost conflict set. -/
def pbDecision (ctx : ProcessCtx) (st : IonState) (bundle : Nat) (req : Requirement)
    (classOf attempts : Nat) (evict : Option (Nat × List Nat)) (splitCost : Option Nat)
    (splitPoint : Nat) (splitReg : Option Nat) : PBDecision :=
  if splitCost.isNone ∧ evict.isNone then .violation
  else
    let ourSpillWeight := st.bundleSpillWeight bundle
    if st.minimalBundle bundle ∧
        (attempts ≥ 2 ∨ evict.isNone ∨ (evict.map Prod.fst).getD 0 ≥ ourSpillWeight) then
      if req = .registerR then
        if tooManyCheck st ctx classOf ((st.bundle bundle).ranges.headD ⟨⟨0, 0⟩, 0⟩).range then
          .tooMany
        else .violation
      else .violation
    else if ¬ st.minimalBundle bundle ∧
        (attempts ≥ 2 ∨ evict.isNone ∨ ourSpillWeight ≤ (evict.map Prod.fst).getD 0) then
      .splitDec (splitPointAfterHoist ctx st bundle splitPoint) splitReg
    else
      .evictDec ((evict.map Prod.snd).getD [])

/-- The `attempts` loop of process_bundle (source lines 786-1061).  The
fuel only realizes the source's debug_assert!(attempts < 100 * num_insts):
the explicit attempts bound always fires first with the fuel the driver
passes. -/
def processBundleLoop (ctx : ProcessCtx) (bundle : Nat) (hintReg : Option Nat)
    (req : Requirement) (classOf : Nat) :
    Nat → Nat → IonState → PBResult × IonState
  | 0, _, st => (.invariantViolation, st)
  | fuel + 1, attempts, st =>
    if attempts ≥ 100 * ctx.numInsts then (.invariantViolation, st)
    else match req with
    | .stackR =>
      (.ok, st.setSpillset (st.bundle bundle).spillset fun s => { s with required := true })
    | .anyR => (.ok, { st with spilledBundles := st.spilledBundles ++ [bundle] })
    | _ =>
      let fixedPreg : Option Nat := match req with
        | .fixedRegR p => some p
        | .fixedStackR p => some p
        | _ => none
      let scanOffset :=
        ppInst (st.lrange ((st.bundle bundle).ranges.headD ⟨⟨0, 0⟩, 0⟩).index).range.from_ + bundle
      match probePhase ctx st bundle (ctx.travIter classOf hintReg none scanOffset fixedPreg)
          none none 0 none with
      | .allocatedP preg st' =>
        (.ok, st'.setSpillset (st'.bundle bundle).spillset fun s => { s with regHint := some preg })
      | .failedP evict splitCost splitPoint splitReg =>
        match pbDecision ctx st bundle req classOf attempts evict splitCost splitPoint splitReg with
        | .tooMany => (.errTooManyLiveRegs, st)
        | .violation => (.invariantViolation, st)
        | .splitDec pt reg => (.ok, splitAndRequeueBundle st bundle pt reg)
        | .evictDec evictSet =>
          processBundleLoop ctx bundle hintReg req classOf fuel (attempts + 1)
            (evictSet.foldl evictBundle st)

/-- process_bundle (lines 729-1062): pick the hint, handle a requirement
conflict by splitting immediately, short-circuit an Any requirement with
an existing spill bundle by migrating the ranges there, and otherwise run
the probe/evict/split loop. -/
def processBundle (ctx : ProcessCtx) (st : IonState) (bundle : Nat)
    (regHint : Option Nat) : PBResult × IonState :=
  let classOf := (st.spillset (st.bundle bundle).spillset).classOf
  let hintReg := pbHintReg st bundle regHint
  match ctx.req with
  | .error splitPoint =>
    if st.minimalBundle bundle then (.invariantViolation, st)
    else (.ok, splitAndRequeueBundle st bundle splitPoint regHint)
  | .ok req =>
    match req, getOrCreateSpillBundle st bundle false with
    | .anyR, (some spill, st') =>
      let list := (st'.bundle bundle).ranges
      let st1 := st'.setBundle bundle fun b => { b with ranges := [] }
      let st2 := list.foldl
        (fun s e => s.setLRange e.index fun r => { r with bundle := spill }) st1
      (.ok, st2.setBundle spill fun b => { b with ranges := b.ranges ++ list })
    | _, _ =>
      processBundleLoop ctx bundle hintReg req classOf (100 * ctx.numInsts) 1 st

/-! ## compute_stackmaps (stackmap.rs lines 19-71) -/

/-- Modelled from the spec: inputs of compute_stackmaps that live outside
the given sources: the ref-typed VReg list and per-VReg safepoint sets
(liveness), and get_alloc_for_range (each live range has a resolved
allocation once allocation is complete). -/
structure StackmapCtx where
  reftypeVregs : List Nat
  safepointsPerVreg : Nat → List Nat
  allocForRange : Nat → Alloc

/-- The inner while loop for one range (source lines 53-65): consume
safepoints before the range end, skipping those before the range start and
emitting (safepoint, slot) pairs for the rest; `none` models the
expectation failure when the allocation is not a stack slot.  Returns the
emitted pairs and the unconsumed safepoints. -/
def sweepRange (alloc : Alloc) (range : CodeRange) :
    List Nat → Option (List (Nat × Nat) × List Nat)
  | [] => some ([], [])
  | p :: rest =>
    if p < range.to_ then
      if p < range.from_ then sweepRange alloc range rest
      else
        match alloc.asStack with
        | none => none
        | some slot =>
          match sweepRange alloc range rest with
          | none => none
          | some (out, rem) => some ((p, slot) :: out, rem)
    else some ([], p :: rest)

/-- The walk over one VReg's ranges with a single safepoint cursor
(source lines 48-66). -/
def sweepRanges (allocForRange : Nat → Alloc) :
    List LREntry → List Nat → Option (List (Nat × Nat))
  | [], _ => some []
  | e :: rest, sps =>
    match sweepRange (allocForRange e.index) e.range sps with
    | none => none
    | some (out, rem) =>
      match sweepRanges allocForRange rest rem with
      | none => none
      | some out2 => some (out ++ out2)

/-- Lexicographic order on the emitted pairs, as Rust sort_unstable uses
on tuples. -/
def pairLe (a b : Nat × Nat) : Prop :=
  a.1 < b.1 ∨ (a.1 = b.1 ∧ a.2 ≤ b.2)

instance : DecidableRel pairLe := fun a b => by unfold pairLe; infer_instance

/-- The loop over the ref-typed VRegs (source lines 35-67): sort each
VReg's safepoints and sweep its ranges, concatenating the emissions. -/
def stackmapLoop (ctx : StackmapCtx) (st : IonState) : List Nat → Option (List (Nat × Nat))
  | [] => some []
  | v :: vs =>
    match sweepRanges ctx.allocForRange (st.vreg v).ranges
        (List.insertionSort (· ≤ ·) ((ctx.safepointsPerVreg v).map ppBefore)) with
    | none => none
    | some out =>
      match stackmapLoop ctx st vs with
      | none => none
      | some rest => some (out ++ rest)

/-- compute_stackmaps: per ref-typed VReg, sort its safepoints, sweep its
ranges emitting (safepoint, slot) pairs, and sort the combined output.
sort_unstable is modelled by insertion sort: on these lists the sorted
result is unique, because elements equivalent under the order are
identical (duplicate ProgPoints, identical pairs), so the choice of
sorting algorithm is observationally irrelevant;
`none` is the loud failure when a covered allocation is not a stack slot.
The source appends into the (empty at this phase) safepoint_slots list; it
is returned here. -/
def computeStackmaps (ctx : StackmapCtx) (st : IonState) : Option (List (Nat × Nat)) :=
  if ctx.reftypeVregs = [] then some []
  else
    match stackmapLoop ctx st ctx.reftypeVregs with
    | none => none
    | some out => some (List.insertionSort pairLe out)

/-! ## Specification-side definitions used by the claims -/

/-- The module invariant on a PReg map: keys appear in map order and are
pairwise non-overlapping (spec invariant 1). -/
def sortedNO (l : List BEntry) : Prop := l.Pairwise fun a b => a.1.to_ ≤ b.1.from_

/-- Every key of the map is a non-empty range. -/
def entriesWF (l : List BEntry) : Prop := ∀ e ∈ l, e.1.from_ < e.1.to_

/-- A bundle's range list is sorted with pairwise non-overlapping ranges
(spec data model of LiveBundle). -/
def lrSorted (l : List LREntry) : Prop := l.Pairwise fun a b => a.range.to_ ≤ b.range.from_

/-- Every range of the list is non-empty. -/
def lrWF (l : List LREntry) : Prop := ∀ e ∈ l, e.range.from_ < e.range.to_

instance (l : List BEntry) : Decidable (sortedNO l) := by unfold sortedNO; infer_instance

instance (l : List LREntry) : Decidable (lrSorted l) := by unfold lrSorted; infer_instance

instance (l : List LREntry) : Decidable (lrWF l) := by unfold lrWF; infer_instance

instance (l : List BEntry) : Decidable (entriesWF l) := by unfold entriesWF; infer_instance

/-- All (bundle range, map entry) pairs that overlap, in the traversal
order of the probe: range-major, map order within a range. -/
def conflictPairs (rs : List LREntry) (btree : List BEntry) : List (CodeRange × BEntry) :=
  rs.flatMap fun r =>
    (btree.filter fun e => decide (r.range.overlaps e.1)).map fun e => (r.range, e)

/-- The conflicting bundle of a pair (meaningful for valid entries). -/
def pairBundle (st : IonState) (pr : CodeRange × BEntry) : Nat :=
  (st.lrange (pr.2.2.getD 0)).bundle

/-- The overlap ProgPoint of a pair: the later of the two starts. -/
def pairPoint (pr : CodeRange × BEntry) : Nat := max pr.2.1.from_ pr.1.from_

/-- The cached weight of a pair's conflicting bundle. -/
def pairWeight (st : IonState) (pr : CodeRange × BEntry) : Nat :=
  st.bundleSpillWeight (pairBundle st pr)

/-- Maximum conflicting-bundle weight over a pair list. -/
def maxPairWeight (st : IonState) (prs : List (CodeRange × BEntry)) : Nat :=
  (prs.map (pairWeight st)).foldl max 0

/-- No overlapping map entry is a fixed reservation. -/
def pairsAllValid (prs : List (CodeRange × BEntry)) : Prop := ∀ pr ∈ prs, pr.2.2 ≠ none

/-- One step of the reference computation: what the probe does with one
overlapping pair, reusing `recordConflict`. -/
inductive SpecOut where
  | cont (acc : ProbeAcc)
  | fixedS (w : Nat) (p : Nat)
  | highS
deriving DecidableEq, Repr

def specStep (st : IonState) (maxCost : Option Nat) (acc : ProbeAcc)
    (key : CodeRange) (e : BEntry) : SpecOut :=
  match e.2 with
  | none => .fixedS acc.maxW e.1.from_
  | some lr =>
    match recordConflict st maxCost acc (st.lrange lr).bundle (max e.1.from_ key.from_) with
    | none => .highS
    | some acc' => .cont acc'

/-- The reference computation of the probe: process the overlapping pairs
in traversal order with the accumulator updates of the loop. -/
def specFold (st : IonState) (maxCost : Option Nat) :
    List (CodeRange × BEntry) → ProbeAcc → ProbeResult
  | [], acc => .done acc
  | (key, e) :: rest, acc =>
    match specStep st maxCost acc key e with
    | .cont acc' => specFold st maxCost rest acc'
    | .fixedS w p => .fixedRes w p
    | .highS => .highRes

/-- Deduplication keeping first occurrences, in order. -/
def firstOccur (l : List Nat) : List Nat :=
  l.foldl (fun acc x => if x ∈ acc then acc else acc ++ [x]) []

/-- A map entry whose processing cannot change the accumulator: a valid
entry whose bundle is already recorded, with the first conflict point
already set. -/
def Noop (st : IonState) (acc : ProbeAcc) (e : BEntry) : Prop :=
  ∃ lr, e.2 = some lr ∧ (st.lrange lr).bundle ∈ acc.conflictSet ∧ acc.firstConflict.isSome

/-- The output list of compute_stackmaps, strictly sorted by ProgPoint. -/
def strictlySortedByPoint (l : List (Nat × Nat)) : Prop := l.Pairwise fun a b => a.1 < b.1

/-- The output list of compute_stackmaps, sorted lexicographically. -/
def sortedLex (l : List (Nat × Nat)) : Prop := l.Pairwise fun a b => pairLe a b

/-- One step of the allocator: any of the mutating operations of the given
sources, with arbitrary arguments. -/
inductive AllocStep : IonState → IonState → Prop where
  | tryAlloc (st : IonState) (b r : Nat) (c : Option Nat) :
      AllocStep st (tryToAllocateBundleToReg st b r c).2
  | evictStep (st : IonState) (b : Nat) : AllocStep st (evictBundle st b)
  | recomputeRange (st : IonState) (i : Nat) : AllocStep st (recomputeRangeProperties st i)
  | recomputeBundle (st : IonState) (b : Nat) : AllocStep st (recomputeBundleProperties st b)
  | spillBundleStep (st : IonState) (b : Nat) (c : Bool) :
      AllocStep st (getOrCreateSpillBundle st b c).2
  | splitStep (st : IonState) (b : Nat) (p : Nat) (h : Option Nat) :
      AllocStep st (splitAndRequeueBundle st b p h)
  | processStep (ctx : ProcessCtx) (st : IonState) (b : Nat) (h : Option Nat) :
      AllocStep st (processBundle ctx st b h).2

/-- Reachability: finitely many allocator steps. -/
def Reachable : IonState → IonState → Prop := Relation.ReflTransGen AllocStep

/-- Monotonicity of the StartsAtDef flags between two states: the range
arena only grows, and a set flag stays set at every existing index. -/
def FlagsMono (s t : IonState) : Prop :=
  s.ranges.length ≤ t.ranges.length ∧
  ∀ i, i < s.ranges.length → (s.lrange i).startsAtDef = true → (t.lrange i).startsAtDef = true

/-- A state with a single live range whose StartsAtDef flag is set. -/
def exStDef : IonState :=
  { bundles := [{ newBundle with ranges := [⟨⟨0, 4⟩, 0⟩] }],
    ranges :=
      [{ range := ⟨0, 4⟩, vreg := some 0, bundle := 0,
         uses := [⟨.useOp, .regC, 1, 2⟩], usesSpillWeight := 2, startsAtDef := true }],
    pregs := [⟨false, []⟩], spillsets := [⟨0, none, false, none⟩],
    vregs := [⟨[⟨⟨0, 4⟩, 0⟩]⟩], allocationQueue := [], spilledBundles := [] }

/-! ## Example states used by the witnesses and counterexamples -/

/-- A live range [0,4) of vreg 0 with no uses. -/
def exLr0 : LiveRangeData :=
  { range := ⟨0, 4⟩, vreg := some 0, bundle := 0, uses := [],
    usesSpillWeight := 0, startsAtDef := false }

/-- A live range [2,6) of vreg 1 with no uses. -/
def exLr1 : LiveRangeData :=
  { range := ⟨2, 6⟩, vreg := some 1, bundle := 1, uses := [],
    usesSpillWeight := 0, startsAtDef := false }

/-- Bundle 0: the challenger owning exLr0. -/
def exB0 : LiveBundleData := { newBundle with ranges := [⟨⟨0, 4⟩, 0⟩] }

/-- Bundle 1: the incumbent owning exLr1, allocated to PReg 0, weight 7. -/
def exB1 : LiveBundleData :=
  { newBundle with ranges := [⟨⟨2, 6⟩, 1⟩], cachedSpillWeight := 7, allocation := .regA 0 }

/-- A state in which PReg 0 holds exLr1 and bundle 0 conflicts with it. -/
def exSt : IonState :=
  { bundles := [exB0, exB1], ranges := [exLr0, exLr1],
    pregs := [⟨false, [(⟨2, 6⟩, some 1)]⟩],
    spillsets := [⟨0, none, false, none⟩], vregs := [⟨[⟨⟨0, 4⟩, 0⟩]⟩],
    allocationQueue := [], spilledBundles := [] }

/-- A state whose bundle 0 has no allocation. -/
def exStFree : IonState :=
  { bundles := [exB0], ranges := [exLr0], pregs := [⟨false, []⟩],
    spillsets := [⟨0, none, false, none⟩], vregs := [⟨[⟨⟨0, 4⟩, 0⟩]⟩],
    allocationQueue := [], spilledBundles := [] }

instance : IsTotal (Nat × Nat) pairLe :=
  ⟨by intro a b; unfold pairLe; omega⟩

instance : IsTrans (Nat × Nat) pairLe :=
  ⟨by intro a b c h1 h2; unfold pairLe at *; omega⟩

instance (l : List (Nat × Nat)) : Decidable (strictlySortedByPoint l) := by
  unfold strictlySortedByPoint; infer_instance

instance (l : List (Nat × Nat)) : Decidable (sortedLex l) := by
  unfold sortedLex; infer_instance

/-- A state with two ref-typed VRegs whose ranges cover the same
safepoint. -/
def exSmSt : IonState :=
  { bundles := [], ranges := [], pregs := [], spillsets := [],
    vregs := [⟨[⟨⟨0, 6⟩, 0⟩]⟩, ⟨[⟨⟨0, 6⟩, 1⟩]⟩], allocationQueue := [], spilledBundles := [] }

/-- The stackmap inputs for exSmSt: both VRegs are ref-typed with a
safepoint at instruction 2, on distinct spill slots. -/
def exSmCtx : StackmapCtx :=
  { reftypeVregs := [0, 1], safepointsPerVreg := fun _ => [2],
    allocForRange := fun i => if i = 0 then .stackA 5 else .stackA 6 }

/-- A one-register machine context with a Register requirement. -/
def exPCtx : ProcessCtx :=
  { req := .ok .registerR, travIter := fun _ _ _ _ _ => [0], insnBlock := fun _ => 0,
    approxLoopDepth := fun _ => 0, blockEntry := fun _ => 0, numInsts := 10,
    preferredRegsByClass := fun _ => [0], nonPreferredRegsByClass := fun _ => [],
    moveCostAt := fun _ => 1 }

/-- A state where non-minimal challenger bundle 0 (weight 5) conflicts
with incumbent bundle 1 (weight 5) on PReg 0. -/
def exC2St : IonState :=
  { bundles :=
      [{ newBundle with ranges := [⟨⟨0, 4⟩, 0⟩], cachedSpillWeight := 5 },
       { newBundle with
         ranges := [⟨⟨0, 4⟩, 1⟩], cachedSpillWeight := 5, allocation := .regA 0 }],
    ranges :=
      [{ range := ⟨0, 4⟩, vreg := some 0, bundle := 0, uses := [], usesSpillWeight := 0,
         startsAtDef := false },
       { range := ⟨0, 4⟩, vreg := some 1, bundle := 1, uses := [], usesSpillWeight := 0,
         startsAtDef := false }],
    pregs := [⟨false, [(⟨0, 4⟩, some 1)]⟩],
    spillsets := [⟨0, none, false, none⟩], vregs := [⟨[⟨⟨0, 4⟩, 0⟩]⟩, ⟨[⟨⟨0, 4⟩, 1⟩]⟩],
    allocationQueue := [], spilledBundles := [] }

/-- A state where minimal bundle 0 conflicts with a minimal incumbent
occupying the only register of the class. -/
def exC4St : IonState :=
  { bundles :=
      [{ newBundle with
         ranges := [⟨⟨0, 2⟩, 0⟩], cachedSpillWeight := 100, cachedMinimal := true },
       { newBundle with
         ranges := [⟨⟨0, 2⟩, 1⟩], cachedSpillWeight := 100, cachedMinimal := true,
         allocation := .regA 0 }],
    ranges :=
      [{ range := ⟨0, 2⟩, vreg := some 0, bundle := 0, uses := [], usesSpillWeight := 0,
         startsAtDef := false },
       { range := ⟨0, 2⟩, vreg := some 1, bundle := 1, uses := [], usesSpillWeight := 0,
         startsAtDef := false }],
    pregs := [⟨false, [(⟨0, 2⟩, some 1)]⟩],
    spillsets := [⟨0, none, false, none⟩], vregs := [⟨[⟨⟨0, 2⟩, 0⟩]⟩, ⟨[⟨⟨0, 2⟩, 1⟩]⟩],
    allocationQueue := [], spilledBundles := [] }

/-- The overlapping pairs contributed by one bundle range: the map entries
it overlaps, in map order, paired with the range. -/
def rangePairs (key : CodeRange) (l : List BEntry) : List (CodeRange × BEntry) :=
  (l.filter fun e => decide (key.overlaps e.1)).map fun e => (key, e)

/-! ## Helper lemmas about the state accessors -/

theorem bundle_setBundle_self (st : IonState) (b : Nat) (f : LiveBundleData → LiveBundleData)
    (hb : b < st.bundles.length) : (st.setBundle b f).bundle b = f (st.bundle b) := by
  simp [IonState.setBundle, IonState.bundle, List.getD, List.getElem?_set, hb]

theorem preg_setPreg_self (st : IonState) (p : Nat) (f : PRegData → PRegData)
    (hp : p < st.pregs.length) : (st.setPreg p f).preg p = f (st.preg p) := by
  simp [IonState.setPreg, IonState.preg, List.getD, List.getElem?_set, hp]

theorem preg_setBundle (st : IonState) (b : Nat) (f : LiveBundleData → LiveBundleData)
    (p : Nat) : (st.setBundle b f).preg p = st.preg p := rfl

theorem bundle_setPreg (st : IonState) (p : Nat) (f : PRegData → PRegData)
    (b : Nat) : (st.setPreg p f).bundle b = st.bundle b := rfl

/-! ## C10: failure results leave the state unchanged -/

theorem tryAlloc_state_cases (st : IonState) (b r : Nat) (c : Option Nat) :
    (∃ a, (tryToAllocateBundleToReg st b r c).1 = .Allocated a) ∨
    (tryToAllocateBundleToReg st b r c).2 = st := by
  unfold tryToAllocateBundleToReg
  dsimp only
  split
  · exact Or.inr rfl
  · exact Or.inr rfl
  · split
    · exact Or.inr rfl
    · exact Or.inl ⟨_, rfl⟩

/-- C10: whenever try_to_allocate_bundle_to_reg returns Conflict,
ConflictWithFixed, or ConflictHighCost, the entire allocator state —
bundle allocations, every PReg map, all bundle and range records — is
exactly as before the call; mutation happens only on Allocated. -/
theorem claim_C10_frame_effect (st : IonState) (b r : Nat) (c : Option Nat)
    (hres : ∀ a, (tryToAllocateBundleToReg st b r c).1 ≠ AllocRegResult.Allocated a) :
    (tryToAllocateBundleToReg st b r c).2 = st := by
  rcases tryAlloc_state_cases st b r c with ⟨a, ha⟩ | h
  · exact absurd ha (hres a)
  · exact h

theorem claim_C10_witness :
    (∀ a, (tryToAllocateBundleToReg exSt 0 0 none).1 ≠ AllocRegResult.Allocated a) ∧
    (tryToAllocateBundleToReg exSt 0 0 none).2 = exSt := by
  have hc : (tryToAllocateBundleToReg exSt 0 0 none).1 = .Conflict [1] 2 := by decide
  have hres : ∀ a, (tryToAllocateBundleToReg exSt 0 0 none).1 ≠ AllocRegResult.Allocated a := by
    intro a h
    rw [hc] at h
    exact AllocRegResult.noConfusion h
  exact ⟨hres, claim_C10_frame_effect exSt 0 0 none hres⟩

/-! ## C8: evict_bundle -/

theorem btreeRemove_cons (k : CodeRange) (e : BEntry) (rest : List BEntry) :
    btreeRemove k (e :: rest) =
      if e.1.to_ ≤ k.from_ then e :: btreeRemove k rest
      else if e.1.from_ ≥ k.to_ then e :: rest else rest := rfl

/-- Removal of a present key from a well-formed map keeps exactly the
entries not overlapping it. -/
theorem btreeRemove_eq_filter (k : CodeRange) (v : Option Nat) :
    ∀ l : List BEntry, sortedNO l → (k.from_ < k.to_) → (k, v) ∈ l →
      btreeRemove k l = l.filter fun f => !decide (k.overlaps f.1)
  | [], _, _, hm => absurd hm (List.not_mem_nil _)
  | ⟨e1, e2⟩ :: rest, hs, hk, hm => by
    rw [sortedNO, List.pairwise_cons] at hs
    obtain ⟨hhead, htail⟩ := hs
    have htail' : sortedNO rest := htail
    have hhead' : ∀ a ∈ rest, e1.to_ ≤ a.1.from_ := fun a ha => hhead a ha
    have hm' : (k = e1 ∧ v = e2) ∨ (k, v) ∈ rest := by
      rcases List.mem_cons.mp hm with h | h
      · left; simpa using h
      · right; exact h
    by_cases h1 : e1.to_ ≤ k.from_
    · have hmr : (k, v) ∈ rest := by
        rcases hm' with ⟨rfl, rfl⟩ | h
        · exfalso; omega
        · exact h
      have hnov : ¬ k.overlaps e1 := by
        rintro ⟨a, b⟩
        omega
      rw [btreeRemove_cons, if_pos h1, List.filter_cons_of_pos (by simpa using hnov),
        btreeRemove_eq_filter k v rest htail' hk hmr]
    · by_cases h2 : e1.from_ ≥ k.to_
      · exfalso
        rcases hm' with ⟨rfl, rfl⟩ | h
        · omega
        · have := hhead' _ h
          simp only at this
          omega
      · have hov : k.overlaps e1 := ⟨by omega, by omega⟩
        have hke : k = e1 := by
          rcases hm' with ⟨rfl, rfl⟩ | h
          · rfl
          · exfalso
            have := hhead' _ h
            simp only at this
            rcases hov with ⟨hov1, hov2⟩
            omega
        rw [btreeRemove_cons, if_neg h1, if_neg (by dsimp only; omega),
          List.filter_cons_of_neg (by simpa using hov)]
        rw [List.filter_eq_self.mpr]
        intro f hf
        have := hhead' _ hf
        subst hke
        simp only [Bool.not_eq_true', decide_eq_false_iff_not]
        rintro ⟨a1, a2⟩
        omega

/-- Removing every range of a sorted, well-formed, present range list
from a well-formed map keeps exactly the entries overlapping none of
them. -/
theorem foldRemove_eq_filter :
    ∀ (ranges : List LREntry) (l : List BEntry), sortedNO l → lrSorted ranges → lrWF ranges →
      (∀ e ∈ ranges, (e.range, some e.index) ∈ l) →
      ranges.foldl (fun t e => btreeRemove e.range t) l =
        l.filter fun f => decide (∀ e ∈ ranges, ¬ e.range.overlaps f.1)
  | [], l, _, _, _, _ => by simp
  | r :: rs, l, hs, hrs, hwf, hmem => by
    rw [List.foldl_cons]
    have hkwf : r.range.from_ < r.range.to_ := hwf _ (List.mem_cons_self _ _)
    have h1 : btreeRemove r.range l = l.filter fun f => !decide (r.range.overlaps f.1) :=
      btreeRemove_eq_filter r.range (some r.index) l hs hkwf (hmem _ (List.mem_cons_self _ _))
    rw [h1]
    have hs' : sortedNO (l.filter fun f => !decide (r.range.overlaps f.1)) :=
      List.Pairwise.filter _ hs
    have hrs' : lrSorted rs := (List.pairwise_cons.mp hrs).2
    have hwf' : lrWF rs := fun e he => hwf e (List.mem_cons_of_mem _ he)
    have hmem' : ∀ e ∈ rs,
        (e.range, some e.index) ∈ l.filter fun f => !decide (r.range.overlaps f.1) := by
      intro e he
      refine List.mem_filter.mpr ⟨hmem e (List.mem_cons_of_mem _ he), ?_⟩
      have hr := (List.pairwise_cons.mp hrs).1 e he
      simp only [Bool.not_eq_true', decide_eq_false_iff_not]
      rintro ⟨a, b⟩
      omega
    rw [foldRemove_eq_filter rs _ hs' hrs' hwf' hmem']
    rw [List.filter_filter]
    apply List.filter_congr
    intro f hf
    simp [List.forall_mem_cons, Bool.and_comm]



/-- C8 counterexample: the claim quantifies over every bundle, yet
evict_bundle on a bundle with no allocation returns early without
re-inserting the bundle into the allocation queue. -/
theorem claim_C8_counterexample :
    ¬ ((evictBundle exStFree 0).allocationQueue =
        exStFree.allocationQueue ++ [(0, (exStFree.bundle 0).prio, none)]) := by decide

/-- C8 (amended): for every bundle b whose allocation is a register p —
under the module invariants that p's map is in order with non-overlapping
keys and holds every range of b keyed by that range — evict_bundle(b)
clears b's allocation to none, removes each of b's ranges from p's map
(no remaining entry overlaps them, all non-overlapping entries remain),
and re-inserts b into the allocation queue with its current priority and
an invalid register hint. -/
theorem claim_C8_evict_amended (st : IonState) (b p : Nat)
    (hb : b < st.bundles.length) (hp : p < st.pregs.length)
    (halloc : (st.bundle b).allocation = .regA p)
    (hmap : sortedNO (st.preg p).allocations)
    (hrs : lrSorted (st.bundle b).ranges) (hrwf : lrWF (st.bundle b).ranges)
    (hmem : ∀ e ∈ (st.bundle b).ranges, (e.range, some e.index) ∈ (st.preg p).allocations) :
    ((evictBundle st b).bundle b).allocation = .noneA ∧
    (∀ e ∈ (st.bundle b).ranges, ∀ f ∈ ((evictBundle st b).preg p).allocations,
      ¬ e.range.overlaps f.1) ∧
    (∀ f ∈ (st.preg p).allocations,
      (∀ e ∈ (st.bundle b).ranges, ¬ e.range.overlaps f.1) →
      f ∈ ((evictBundle st b).preg p).allocations) ∧
    (evictBundle st b).allocationQueue =
      st.allocationQueue ++ [(b, (st.bundle b).prio, none)] := by
  have hAs : (st.bundle b).allocation.asReg = some p := by rw [halloc]; rfl
  unfold evictBundle
  rw [hAs]
  dsimp only
  have h1 : (st.setBundle b fun bd => { bd with allocation := Alloc.noneA }).bundle b
      = { st.bundle b with allocation := Alloc.noneA } := bundle_setBundle_self st b _ hb
  have hp1 : p < (st.setBundle b fun bd => { bd with allocation := Alloc.noneA }).pregs.length := by
    simpa [IonState.setBundle] using hp
  rw [h1]
  dsimp only
  have h2 := preg_setPreg_self (st.setBundle b fun bd => { bd with allocation := Alloc.noneA }) p
    (fun pr => { pr with allocations :=
      ((st.bundle b).ranges.foldl (fun t e => btreeRemove e.range t) pr.allocations) }) hp1
  constructor
  · rw [show ∀ s : IonState, ∀ q, ({ s with allocationQueue := q } : IonState).bundle b = s.bundle b
      from fun _ _ => rfl]
    rw [bundle_setPreg, h1]
  constructor
  · intro e he f hf
    rw [show ∀ s : IonState, ∀ q, ({ s with allocationQueue := q } : IonState).preg p = s.preg p
      from fun _ _ => rfl] at hf
    rw [h2] at hf
    dsimp only at hf
    rw [preg_setBundle] at hf
    rw [foldRemove_eq_filter _ _ hmap hrs hrwf hmem] at hf
    have := (List.mem_filter.mp hf).2
    rw [decide_eq_true_iff] at this
    exact this e he
  constructor
  · intro f hf hno
    rw [show ∀ s : IonState, ∀ q, ({ s with allocationQueue := q } : IonState).preg p = s.preg p
      from fun _ _ => rfl]
    rw [h2]
    dsimp only
    rw [preg_setBundle]
    rw [foldRemove_eq_filter _ _ hmap hrs hrwf hmem]
    exact List.mem_filter.mpr ⟨hf, by rw [decide_eq_true_iff]; exact hno⟩
  · rw [show ∀ s : IonState, ∀ q, ({ s with allocationQueue := q } : IonState).allocationQueue = q
      from fun _ _ => rfl]
    congr 1
    rw [bundle_setPreg, h1]




/-- Witness for C8 at a concrete allocated bundle. -/
theorem claim_C8_witness :
    (exSt.bundle 1).allocation = Alloc.regA 0 ∧
    (((evictBundle exSt 1).bundle 1).allocation = Alloc.noneA ∧
     (∀ e ∈ (exSt.bundle 1).ranges, ∀ f ∈ ((evictBundle exSt 1).preg 0).allocations,
        ¬ e.range.overlaps f.1) ∧
     (∀ f ∈ (exSt.preg 0).allocations,
        (∀ e ∈ (exSt.bundle 1).ranges, ¬ e.range.overlaps f.1) →
        f ∈ ((evictBundle exSt 1).preg 0).allocations) ∧
     (evictBundle exSt 1).allocationQueue =
        exSt.allocationQueue ++ [(1, (exSt.bundle 1).prio, none)]) :=
  ⟨by decide, claim_C8_evict_amended exSt 1 0 (by decide) (by decide) (by decide)
    (by decide) (by decide) (by decide) (by decide)⟩

/-- C3: for every non-minimal bundle with bundle_start <= split_at <
bundle_end (and every use lying inside the bundle, as liveness
guarantees), the split-point normalization of split_and_requeue_bundle
produces a final split point strictly between bundle_start and
bundle_end whose position is never After. -/
theorem claim_C3_split_normalization (st : IonState) (bundle : Nat) (splitAt : Nat)
    (bundleStart bundleEnd : Nat)
    (hS : bundleStart = ((st.bundle bundle).ranges.headD ⟨⟨0, 0⟩, 0⟩).range.from_)
    (hE : bundleEnd = ((st.bundle bundle).ranges.getLastD ⟨⟨0, 0⟩, 0⟩).range.to_)
    (h1 : bundleStart ≤ splitAt) (h2 : splitAt < bundleEnd)
    (hmin : ppInst bundleStart ≠ ppInst (ppPrev bundleEnd))
    (huses : ∀ entry ∈ (st.bundle bundle).ranges, ∀ u ∈ (st.lrange entry.index).uses,
      bundleStart ≤ u.pos ∧ u.pos < bundleEnd) :
    bundleStart < normalizeSplitPoint st bundle splitAt ∧
    normalizeSplitPoint st bundle splitAt < bundleEnd ∧
    ppIsAfter (normalizeSplitPoint st bundle splitAt) = false := by
  unfold normalizeSplitPoint
  dsimp only
  rw [← hS, ← hE]
  by_cases hsp : splitAt = bundleStart
  · rw [if_pos hsp]
    cases hfu : firstUsePos st bundle with
    | none =>
      dsimp only
      simp only [ppBefore, ppInst, ppIsAfter, ppPrev] at *
      refine ⟨by omega, by omega, by simp only [decide_eq_false_iff_not]; omega⟩
    | some pos =>
      have hpos : bundleStart ≤ pos ∧ pos < bundleEnd := by
        unfold firstUsePos at hfu
        obtain ⟨entry, hent, hfs⟩ := List.exists_of_findSome?_eq_some hfu
        obtain ⟨u, hu1, hu2⟩ := Option.map_eq_some'.mp hfs
        have humem : u ∈ (st.lrange entry.index).uses := List.mem_of_mem_head? hu1
        have := huses entry hent u humem
        omega
      dsimp only
      by_cases hi : ppInst pos = ppInst bundleStart
      · rw [if_pos hi]
        simp only [ppBefore, ppInst, ppIsAfter, ppPrev] at *
        refine ⟨by omega, by omega, by simp only [decide_eq_false_iff_not]; omega⟩
      · rw [if_neg hi]
        simp only [ppBefore, ppInst, ppIsAfter, ppPrev] at *
        refine ⟨by omega, by omega, by simp only [decide_eq_false_iff_not]; omega⟩
  · rw [if_neg hsp]
    by_cases hodd : splitAt % 2 = 1
    · rw [if_pos (show ppIsAfter splitAt = true by simp [ppIsAfter, hodd])]
      by_cases hge : ppNext splitAt ≥ bundleEnd
      · rw [if_pos hge]
        simp only [ppNext, ppPrev, ppInst, ppIsAfter] at *
        refine ⟨by omega, by omega, by simp only [decide_eq_false_iff_not]; omega⟩
      · rw [if_neg hge]
        simp only [ppNext, ppPrev, ppInst, ppIsAfter] at *
        refine ⟨by omega, by omega, by simp only [decide_eq_false_iff_not]; omega⟩
    · rw [if_neg (show ¬ ppIsAfter splitAt = true by simp [ppIsAfter, hodd])]
      rw [if_neg (by omega)]
      simp only [ppIsAfter] at *
      refine ⟨by omega, by omega, by simp only [decide_eq_false_iff_not]; omega⟩

/-- Witness for C3 at a concrete two-instruction bundle. -/
theorem claim_C3_witness :
    (0 : Nat) ≤ 3 ∧ (3 : Nat) < 4 ∧
    (0 < normalizeSplitPoint exStFree 0 3 ∧ normalizeSplitPoint exStFree 0 3 < 4 ∧
      ppIsAfter (normalizeSplitPoint exStFree 0 3) = false) :=
  ⟨by decide, by decide,
    claim_C3_split_normalization exStFree 0 3 0 4 (by decide) (by decide) (by decide) (by decide)
      (by decide) (by decide)⟩

/-! ## C9: compute_stackmaps -/

theorem sweepRange_cons (alloc : Alloc) (range : CodeRange) (p : Nat) (rest : List Nat) :
    sweepRange alloc range (p :: rest) =
      if p < range.to_ then
        if p < range.from_ then sweepRange alloc range rest
        else
          match alloc.asStack with
          | none => none
          | some slot =>
            match sweepRange alloc range rest with
            | none => none
            | some (out, rem) => some ((p, slot) :: out, rem)
      else some ([], p :: rest) := rfl

theorem sweepRange_rem (alloc : Alloc) (range : CodeRange) :
    ∀ (sps : List Nat) (out0 : List (Nat × Nat)) (rem : List Nat),
      sweepRange alloc range sps = some (out0, rem) →
      rem = sps.dropWhile fun p => decide (p < range.to_)
  | [], out0, rem, h => by
    simp only [sweepRange] at h
    obtain ⟨h1, h2⟩ := Prod.mk.injEq .. ▸ (Option.some.injEq .. ▸ h)
    simp [← h2]
  | q :: rest, out0, rem, h => by
    rw [sweepRange_cons] at h
    by_cases h1 : q < range.to_
    · rw [if_pos h1] at h
      rw [List.dropWhile_cons_of_pos (by simpa using h1)]
      by_cases h2 : q < range.from_
      · rw [if_pos h2] at h
        exact sweepRange_rem alloc range rest out0 rem h
      · rw [if_neg h2] at h
        cases hAs : alloc.asStack with
        | none => rw [hAs] at h; cases h
        | some slot =>
          rw [hAs] at h
          cases hrec : sweepRange alloc range rest with
          | none => rw [hrec] at h; cases h
          | some pr =>
            obtain ⟨out', rem'⟩ := pr
            rw [hrec] at h
            obtain ⟨hh1, hh2⟩ := Prod.mk.injEq .. ▸ (Option.some.injEq .. ▸ h)
            rw [← hh2]
            exact sweepRange_rem alloc range rest out' rem' hrec
    · rw [if_neg h1] at h
      obtain ⟨hh1, hh2⟩ := Prod.mk.injEq .. ▸ (Option.some.injEq .. ▸ h)
      rw [List.dropWhile_cons_of_neg (by simpa using h1), ← hh2]

theorem mem_dropWhile_of_not {α : Type} (q : α → Bool) (p : α) :
    ∀ l : List α, p ∈ l → q p = false → p ∈ l.dropWhile q
  | [], hm, _ => absurd hm (List.not_mem_nil _)
  | a :: rest, hm, hq => by
    by_cases ha : q a
    · rw [List.dropWhile_cons_of_pos ha]
      rcases List.mem_cons.mp hm with rfl | h
      · rw [hq] at ha; cases ha
      · exact mem_dropWhile_of_not q p rest h hq
    · rw [List.dropWhile_cons_of_neg ha]
      exact hm

theorem sweepRange_mem (alloc : Alloc) (range : CodeRange) :
    ∀ (sps : List Nat) (out0 : List (Nat × Nat)) (rem : List Nat),
      sps.Sorted (· ≤ ·) →
      sweepRange alloc range sps = some (out0, rem) →
      ∀ p ∈ sps, range.from_ ≤ p → p < range.to_ →
        (p, (alloc.asStack).getD 0) ∈ out0
  | [], out0, rem, _, h, p, hp, _, _ => absurd hp (List.not_mem_nil _)
  | q :: rest, out0, rem, hsort, h, p, hp, hfrom, hto => by
    rw [sweepRange_cons] at h
    have hst : rest.Sorted (· ≤ ·) := hsort.of_cons
    by_cases h1 : q < range.to_
    · rw [if_pos h1] at h
      by_cases h2 : q < range.from_
      · rw [if_pos h2] at h
        rcases List.mem_cons.mp hp with rfl | hpr
        · omega
        · exact sweepRange_mem alloc range rest out0 rem hst h p hpr hfrom hto
      · rw [if_neg h2] at h
        cases hAs : alloc.asStack with
        | none => rw [hAs] at h; cases h
        | some slot =>
          rw [hAs] at h
          cases hrec : sweepRange alloc range rest with
          | none => rw [hrec] at h; cases h
          | some pr =>
            obtain ⟨out', rem'⟩ := pr
            rw [hrec] at h
            obtain ⟨hh1, hh2⟩ := Prod.mk.injEq .. ▸ (Option.some.injEq .. ▸ h)
            rw [← hh1]
            rcases List.mem_cons.mp hp with rfl | hpr
            · simp [hAs]
            · have hmem := sweepRange_mem alloc range rest out' rem' hst hrec p hpr hfrom hto
              rw [hAs] at hmem
              exact List.mem_cons_of_mem _ hmem
    · rw [if_neg h1] at h
      rcases List.mem_cons.mp hp with rfl | hpr
      · omega
      · have hqp : q ≤ p := (List.sorted_cons.mp hsort).1 p hpr
        omega

theorem sweepRange_isSome (alloc : Alloc) (range : CodeRange) :
    ∀ sps : List Nat,
      (∀ p ∈ sps, range.from_ ≤ p → p < range.to_ → alloc.asStack ≠ none) →
      ∃ pr, sweepRange alloc range sps = some pr
  | [], _ => ⟨([], []), rfl⟩
  | q :: rest, hall => by
    rw [sweepRange_cons]
    have hrest : ∀ p ∈ rest, range.from_ ≤ p → p < range.to_ → alloc.asStack ≠ none :=
      fun p hp => hall p (List.mem_cons_of_mem _ hp)
    by_cases h1 : q < range.to_
    · rw [if_pos h1]
      by_cases h2 : q < range.from_
      · rw [if_pos h2]
        exact sweepRange_isSome alloc range rest hrest
      · cases hAs : alloc.asStack with
        | none => exact absurd hAs (hall q (List.mem_cons_self _ _) (by omega) h1)
        | some slot =>
          rw [if_neg h2]
          obtain ⟨⟨out', rem'⟩, hrec⟩ := sweepRange_isSome alloc range rest hrest
          dsimp only
          rw [hrec]
          exact ⟨((q, slot) :: out', rem'), rfl⟩
    · rw [if_neg h1]
      exact ⟨([], q :: rest), rfl⟩

theorem sweepRanges_cons (allocFor : Nat → Alloc) (e : LREntry) (rest : List LREntry)
    (sps : List Nat) :
    sweepRanges allocFor (e :: rest) sps =
      match sweepRange (allocFor e.index) e.range sps with
      | none => none
      | some (out, rem) =>
        match sweepRanges allocFor rest rem with
        | none => none
        | some out2 => some (out ++ out2) := rfl

theorem sweepRanges_mem (allocFor : Nat → Alloc) :
    ∀ (ranges : List LREntry) (sps : List Nat) (out : List (Nat × Nat)),
      lrSorted ranges → sps.Sorted (· ≤ ·) →
      sweepRanges allocFor ranges sps = some out →
      ∀ e ∈ ranges, ∀ p ∈ sps, e.range.from_ ≤ p → p < e.range.to_ →
        (p, ((allocFor e.index).asStack).getD 0) ∈ out
  | [], sps, out, _, _, _, e, he, _, _, _, _ => absurd he (List.not_mem_nil _)
  | e0 :: rs, sps, out, hsort, hsps, h, e, he, p, hp, hfrom, hto => by
    rw [sweepRanges_cons] at h
    cases hr0 : sweepRange (allocFor e0.index) e0.range sps with
    | none => rw [hr0] at h; cases h
    | some pr =>
      obtain ⟨out0, rem⟩ := pr
      rw [hr0] at h
      dsimp only at h
      cases hr1 : sweepRanges allocFor rs rem with
      | none => rw [hr1] at h; cases h
      | some out1 =>
        rw [hr1] at h
        have hout : out0 ++ out1 = out := Option.some.inj h
        rw [← hout]
        rw [lrSorted, List.pairwise_cons] at hsort
        obtain ⟨hofirst, hotail⟩ := hsort
        rcases List.mem_cons.mp he with rfl | her
        · exact List.mem_append_left _
            (sweepRange_mem (allocFor e.index) e.range sps out0 rem hsps hr0 p hp hfrom hto)
        · have hQ : e0.range.to_ ≤ e.range.from_ := hofirst e her
          have hrem : rem = sps.dropWhile fun q => decide (q < e0.range.to_) :=
            sweepRange_rem (allocFor e0.index) e0.range sps out0 rem hr0
          have hprem : p ∈ rem := by
            rw [hrem]
            exact mem_dropWhile_of_not _ p sps hp (by simp; omega)
          have hremsorted : rem.Sorted (· ≤ ·) := by
            rw [hrem]
            exact hsps.sublist (List.dropWhile_sublist _)
          exact List.mem_append_right _
            (sweepRanges_mem allocFor rs rem out1 hotail hremsorted hr1 e her p hprem hfrom hto)

theorem sweepRanges_isSome (allocFor : Nat → Alloc) :
    ∀ (ranges : List LREntry) (sps : List Nat),
      (∀ e ∈ ranges, ∀ p ∈ sps, e.range.from_ ≤ p → p < e.range.to_ →
        (allocFor e.index).asStack ≠ none) →
      ∃ out, sweepRanges allocFor ranges sps = some out
  | [], sps, _ => ⟨[], rfl⟩
  | e0 :: rs, sps, hall => by
    rw [sweepRanges_cons]
    obtain ⟨⟨out0, rem⟩, hr0⟩ := sweepRange_isSome (allocFor e0.index) e0.range sps
      (fun p hp => hall e0 (List.mem_cons_self _ _) p hp)
    rw [hr0]
    dsimp only
    have hrem : rem = sps.dropWhile fun q => decide (q < e0.range.to_) :=
      sweepRange_rem (allocFor e0.index) e0.range sps out0 rem hr0
    have hall' : ∀ e ∈ rs, ∀ p ∈ rem, e.range.from_ ≤ p → p < e.range.to_ →
        (allocFor e.index).asStack ≠ none := by
      intro e he p hpr
      have hpm : p ∈ sps := by
        rw [hrem] at hpr
        exact List.dropWhile_subset _ hpr
      exact hall e (List.mem_cons_of_mem _ he) p hpm
    obtain ⟨out1, hr1⟩ := sweepRanges_isSome allocFor rs rem hall'
    rw [hr1]
    exact ⟨out0 ++ out1, rfl⟩

theorem stackmapLoopEq (ctx : StackmapCtx) (st : IonState) (v : Nat) (vs : List Nat) :
    stackmapLoop ctx st (v :: vs) =
      match sweepRanges ctx.allocForRange (st.vreg v).ranges
          (List.insertionSort (· ≤ ·) ((ctx.safepointsPerVreg v).map ppBefore)) with
      | none => none
      | some out =>
        match stackmapLoop ctx st vs with
        | none => none
        | some rest => some (out ++ rest) := rfl

theorem stackmapLoop_isSome (ctx : StackmapCtx) (st : IonState) :
    ∀ vs : List Nat,
      (∀ v ∈ vs, ∀ e ∈ (st.vreg v).ranges, ∀ i ∈ ctx.safepointsPerVreg v,
        e.range.from_ ≤ ppBefore i → ppBefore i < e.range.to_ →
        (ctx.allocForRange e.index).asStack ≠ none) →
      ∃ out, stackmapLoop ctx st vs = some out
  | [], _ => ⟨[], rfl⟩
  | v :: vs, hall => by
    rw [stackmapLoopEq]
    obtain ⟨out0, hr0⟩ := sweepRanges_isSome ctx.allocForRange (st.vreg v).ranges
      (List.insertionSort (· ≤ ·) ((ctx.safepointsPerVreg v).map ppBefore))
      (by
        intro e he p hp hfrom hto
        rw [List.mem_insertionSort, List.mem_map] at hp
        obtain ⟨i, hi, rfl⟩ := hp
        exact hall v (List.mem_cons_self _ _) e he i hi hfrom hto)
    rw [hr0]
    dsimp only
    obtain ⟨out1, hr1⟩ := stackmapLoop_isSome ctx st vs
      (fun w hw => hall w (List.mem_cons_of_mem _ hw))
    rw [hr1]
    exact ⟨out0 ++ out1, rfl⟩

theorem stackmapLoop_mem (ctx : StackmapCtx) (st : IonState) :
    ∀ (vs : List Nat) (out : List (Nat × Nat)),
      (∀ v ∈ vs, lrSorted (st.vreg v).ranges) →
      stackmapLoop ctx st vs = some out →
      ∀ v ∈ vs, ∀ e ∈ (st.vreg v).ranges, ∀ i ∈ ctx.safepointsPerVreg v,
        e.range.from_ ≤ ppBefore i → ppBefore i < e.range.to_ →
        (ppBefore i, ((ctx.allocForRange e.index).asStack).getD 0) ∈ out
  | [], out, _, _, v, hv, _, _, _, _, _, _ => absurd hv (List.not_mem_nil _)
  | v0 :: vs, out, hsorted, h, v, hv, e, he, i, hi, hfrom, hto => by
    rw [stackmapLoopEq] at h
    cases hr0 : sweepRanges ctx.allocForRange (st.vreg v0).ranges
        (List.insertionSort (· ≤ ·) ((ctx.safepointsPerVreg v0).map ppBefore)) with
    | none => rw [hr0] at h; cases h
    | some out0 =>
      rw [hr0] at h
      dsimp only at h
      cases hr1 : stackmapLoop ctx st vs with
      | none => rw [hr1] at h; cases h
      | some out1 =>
        rw [hr1] at h
        have hout : out0 ++ out1 = out := Option.some.inj h
        rw [← hout]
        rcases List.mem_cons.mp hv with rfl | hvr
        · refine List.mem_append_left _
            (sweepRanges_mem ctx.allocForRange (st.vreg v).ranges _ out0
              (hsorted v (List.mem_cons_self _ _)) (List.sorted_insertionSort _ _) hr0 e he
              (ppBefore i) ?_ hfrom hto)
          rw [List.mem_insertionSort, List.mem_map]
          exact ⟨i, hi, rfl⟩
        · exact List.mem_append_right _
            (stackmapLoop_mem ctx st vs out1
              (fun w hw => hsorted w (List.mem_cons_of_mem _ hw)) hr1 v hvr e he i hi hfrom hto)









/-- C9 counterexample: two ref-typed VRegs live across the same safepoint
each emit a pair at the same ProgPoint, so the final safepoint_slots list
is not strictly sorted by ProgPoint as the claim states. -/
theorem claim_C9_counterexample :
    computeStackmaps exSmCtx exSmSt = some [(4, 5), (4, 6)] ∧
    ¬ strictlySortedByPoint [(4, 5), (4, 6)] := by decide

/-- C9 (amended): with complete allocations — every range of a ref-typed
VReg covering one of its safepoints resolves to a stack slot (failing
loudly otherwise, modelled by the none result), and each VReg's range list
ordered — compute_stackmaps succeeds, emits a (point, slot) pair for every
safepoint ProgPoint before(inst) with range.from <= point < range.to, and
the final list is sorted lexicographically, hence non-decreasingly (not
strictly) by ProgPoint. -/
theorem claim_C9_stackmaps_amended (ctx : StackmapCtx) (st : IonState)
    (hsorted : ∀ v ∈ ctx.reftypeVregs, lrSorted (st.vreg v).ranges)
    (hstack : ∀ v ∈ ctx.reftypeVregs, ∀ e ∈ (st.vreg v).ranges, ∀ i ∈ ctx.safepointsPerVreg v,
      e.range.from_ ≤ ppBefore i → ppBefore i < e.range.to_ →
      (ctx.allocForRange e.index).asStack ≠ none) :
    ∃ out, computeStackmaps ctx st = some out ∧
      (∀ v ∈ ctx.reftypeVregs, ∀ e ∈ (st.vreg v).ranges, ∀ i ∈ ctx.safepointsPerVreg v,
        e.range.from_ ≤ ppBefore i → ppBefore i < e.range.to_ →
        (ppBefore i, ((ctx.allocForRange e.index).asStack).getD 0) ∈ out) ∧
      sortedLex out := by
  unfold computeStackmaps
  by_cases hemp : ctx.reftypeVregs = []
  · rw [if_pos hemp]
    refine ⟨[], rfl, ?_, by unfold sortedLex; exact List.Pairwise.nil⟩
    intro v hv
    rw [hemp] at hv
    exact absurd hv (List.not_mem_nil _)
  · rw [if_neg hemp]
    obtain ⟨out0, hr⟩ := stackmapLoop_isSome ctx st ctx.reftypeVregs hstack
    rw [hr]
    refine ⟨List.insertionSort pairLe out0, rfl, ?_, ?_⟩
    · intro v hv e he i hi hfrom hto
      rw [List.mem_insertionSort]
      exact stackmapLoop_mem ctx st ctx.reftypeVregs out0 hsorted hr v hv e he i hi hfrom hto
    · exact List.sorted_insertionSort pairLe out0

/-- Witness for the amended C9 at the concrete two-VReg state. -/
theorem claim_C9_witness :
    (∀ v ∈ exSmCtx.reftypeVregs, lrSorted (exSmSt.vreg v).ranges) ∧
    (∃ out, computeStackmaps exSmCtx exSmSt = some out ∧
      (∀ v ∈ exSmCtx.reftypeVregs, ∀ e ∈ (exSmSt.vreg v).ranges,
        ∀ i ∈ exSmCtx.safepointsPerVreg v,
        e.range.from_ ≤ ppBefore i → ppBefore i < e.range.to_ →
        (ppBefore i, ((exSmCtx.allocForRange e.index).asStack).getD 0) ∈ out) ∧
      sortedLex out) :=
  ⟨by decide, claim_C9_stackmaps_amended exSmCtx exSmSt (by decide) (by decide)⟩

/-! ## C2 and C4: the process_bundle decision -/

/-- Unfolding of the attempts loop at a successor fuel value. -/
theorem processBundleLoop_succ (ctx : ProcessCtx) (bundle : Nat) (hintReg : Option Nat)
    (req : Requirement) (classOf fuel attempts : Nat) (st : IonState) :
    processBundleLoop ctx bundle hintReg req classOf (fuel + 1) attempts st =
      if attempts ≥ 100 * ctx.numInsts then (.invariantViolation, st)
      else match req with
      | .stackR =>
        (.ok, st.setSpillset (st.bundle bundle).spillset fun s => { s with required := true })
      | .anyR => (.ok, { st with spilledBundles := st.spilledBundles ++ [bundle] })
      | _ =>
        let fixedPreg : Option Nat := match req with
          | .fixedRegR p => some p
          | .fixedStackR p => some p
          | _ => none
        let scanOffset :=
          ppInst (st.lrange ((st.bundle bundle).ranges.headD ⟨⟨0, 0⟩, 0⟩).index).range.from_
            + bundle
        match probePhase ctx st bundle (ctx.travIter classOf hintReg none scanOffset fixedPreg)
            none none 0 none with
        | .allocatedP preg st' =>
          (.ok, st'.setSpillset (st'.bundle bundle).spillset fun s =>
            { s with regHint := some preg })
        | .failedP evict splitCost splitPoint splitReg =>
          match pbDecision ctx st bundle req classOf attempts evict splitCost splitPoint
              splitReg with
          | .tooMany => (.errTooManyLiveRegs, st)
          | .violation => (.invariantViolation, st)
          | .splitDec pt reg => (.ok, splitAndRequeueBundle st bundle pt reg)
          | .evictDec evictSet =>
            processBundleLoop ctx bundle hintReg req classOf fuel (attempts + 1)
              (evictSet.foldl evictBundle st) := rfl

/-- After a failed probe the loop acts exactly according to pbDecision. -/
theorem processBundleLoop_dispatch (ctx : ProcessCtx) (bundle : Nat) (hintReg : Option Nat)
    (req : Requirement) (classOf fuel attempts : Nat) (st : IonState)
    (evict : Option (Nat × List Nat)) (sc : Option Nat) (sp : Nat) (sr : Option Nat)
    (hatt : attempts < 100 * ctx.numInsts)
    (hreq : req = .registerR ∨ (∃ p, req = .fixedRegR p) ∨ (∃ p, req = .fixedStackR p))
    (hprobe : probePhase ctx st bundle
      (ctx.travIter classOf hintReg none
        (ppInst (st.lrange ((st.bundle bundle).ranges.headD ⟨⟨0, 0⟩, 0⟩).index).range.from_
          + bundle)
        (match req with
          | .fixedRegR p => some p
          | .fixedStackR p => some p
          | _ => none))
      none none 0 none = .failedP evict sc sp sr) :
    processBundleLoop ctx bundle hintReg req classOf (fuel + 1) attempts st =
      match pbDecision ctx st bundle req classOf attempts evict sc sp sr with
      | .tooMany => (.errTooManyLiveRegs, st)
      | .violation => (.invariantViolation, st)
      | .splitDec pt reg => (.ok, splitAndRequeueBundle st bundle pt reg)
      | .evictDec evictSet =>
        processBundleLoop ctx bundle hintReg req classOf fuel (attempts + 1)
          (evictSet.foldl evictBundle st) := by
  rcases hreq with rfl | ⟨p, rfl⟩ | ⟨p, rfl⟩ <;>
  · rw [processBundleLoop_succ, if_neg (by omega)]
    dsimp only
    rw [hprobe]



/-- C4: when a minimal bundle with Requirement::Register fails to
allocate and attempts >= 2, or no evict option exists, or the best evict
cost is at least the bundle's own spill weight, process_bundle scans every
PReg of the class counting minimal-bundle and fixed-reservation occupants
over the bundle's first range and returns TooManyLiveRegs exactly when the
count reaches the class size, panicking otherwise. -/
theorem claim_C4_too_many (ctx : ProcessCtx) (st : IonState) (bundle : Nat)
    (hintReg : Option Nat) (classOf fuel attempts : Nat)
    (evict : Option (Nat × List Nat)) (sc : Option Nat) (sp : Nat) (sr : Option Nat)
    (hatt : attempts < 100 * ctx.numInsts)
    (hprobe : probePhase ctx st bundle
      (ctx.travIter classOf hintReg none
        (ppInst (st.lrange ((st.bundle bundle).ranges.headD ⟨⟨0, 0⟩, 0⟩).index).range.from_
          + bundle) none)
      none none 0 none = .failedP evict sc sp sr)
    (hopt : ¬ (sc.isNone = true ∧ evict.isNone = true))
    (hmin : st.minimalBundle bundle = true)
    (htrig : attempts ≥ 2 ∨ evict.isNone = true ∨
      (evict.map Prod.fst).getD 0 ≥ st.bundleSpillWeight bundle) :
    processBundleLoop ctx bundle hintReg .registerR classOf (fuel + 1) attempts st =
      (if tooManyCheck st ctx classOf ((st.bundle bundle).ranges.headD ⟨⟨0, 0⟩, 0⟩).range
       then (.errTooManyLiveRegs, st) else (.invariantViolation, st)) := by
  rw [processBundleLoop_dispatch ctx bundle hintReg _ classOf fuel attempts st evict sc sp sr
    hatt (Or.inl rfl) hprobe]
  unfold pbDecision
  rw [if_neg hopt]
  dsimp only
  rw [if_pos ⟨hmin, htrig⟩, if_pos rfl]
  by_cases hc : tooManyCheck st ctx classOf ((st.bundle bundle).ranges.headD ⟨⟨0, 0⟩, 0⟩).range
  · rw [if_pos hc, if_pos hc]
  · rw [if_neg hc, if_neg hc]

/-- C2: a non-minimal bundle whose probe found no free PReg splits when
attempts >= 2, or there is no evictable conflict option, or its own weight
is less than or equal to the lowest eviction cost (in particular on equal
weights, so the challenger splits rather than evicting); otherwise it
evicts every bundle of the lowest-cost conflict set and retries. -/
theorem claim_C2_split_vs_evict (ctx : ProcessCtx) (st : IonState) (bundle : Nat)
    (hintReg : Option Nat) (req : Requirement) (classOf fuel attempts : Nat)
    (evict : Option (Nat × List Nat)) (sc : Option Nat) (sp : Nat) (sr : Option Nat)
    (hatt : attempts < 100 * ctx.numInsts)
    (hreq : req = .registerR ∨ (∃ p, req = .fixedRegR p) ∨ (∃ p, req = .fixedStackR p))
    (hprobe : probePhase ctx st bundle
      (ctx.travIter classOf hintReg none
        (ppInst (st.lrange ((st.bundle bundle).ranges.headD ⟨⟨0, 0⟩, 0⟩).index).range.from_
          + bundle)
        (match req with
          | .fixedRegR p => some p
          | .fixedStackR p => some p
          | _ => none))
      none none 0 none = .failedP evict sc sp sr)
    (hmin : st.minimalBundle bundle = false)
    (hopt : ¬ (sc.isNone = true ∧ evict.isNone = true)) :
    ((attempts ≥ 2 ∨ evict.isNone = true ∨
        st.bundleSpillWeight bundle ≤ (evict.map Prod.fst).getD 0) →
      processBundleLoop ctx bundle hintReg req classOf (fuel + 1) attempts st =
        (.ok, splitAndRequeueBundle st bundle (splitPointAfterHoist ctx st bundle sp) sr)) ∧
    (∀ cost evictSet, evict = some (cost, evictSet) → attempts < 2 →
      st.bundleSpillWeight bundle > cost →
      processBundleLoop ctx bundle hintReg req classOf (fuel + 1) attempts st =
        processBundleLoop ctx bundle hintReg req classOf fuel (attempts + 1)
          (evictSet.foldl evictBundle st)) := by
  rw [processBundleLoop_dispatch ctx bundle hintReg req classOf fuel attempts st evict sc sp sr
    hatt hreq hprobe]
  unfold pbDecision
  rw [if_neg hopt]
  dsimp only
  rw [if_neg (by rintro ⟨h1, h2⟩; rw [hmin] at h1; cases h1)]
  constructor
  · intro htrig
    rw [if_pos ⟨by rw [hmin]; exact Bool.false_ne_true, htrig⟩]
  · intro cost evictSet heq hlt hgt
    subst heq
    rw [if_neg (by
      rintro ⟨h1, h2 | h2 | h2⟩
      · omega
      · simp at h2
      · simp at h2; omega)]
    simp

/-- Witness for C4: the saturated one-register class yields the terminal
error. -/
theorem claim_C4_witness :
    processBundleLoop exPCtx 0 none .registerR 0 6 1 exC4St =
      (.errTooManyLiveRegs, exC4St) := by
  rw [claim_C4_too_many exPCtx exC4St 0 none 0 5 1 (some (100, [1])) (some 101) 0 (some 0)
    (by decide) (by decide) (by decide) (by decide) (by decide)]
  decide

/-- Witness for C2: equal weights (5 = 5) choose the split branch. -/
theorem claim_C2_witness :
    ((1 ≥ 2 ∨ (some (5, [1]) : Option (Nat × List Nat)).isNone = true ∨
        exC2St.bundleSpillWeight 0 ≤ ((some (5, [1]) : Option (Nat × List Nat)).map Prod.fst).getD 0)) ∧
    processBundleLoop exPCtx 0 none .registerR 0 6 1 exC2St =
      (.ok, splitAndRequeueBundle exC2St 0 (splitPointAfterHoist exPCtx exC2St 0 0) (some 0)) :=
  ⟨by decide,
    (claim_C2_split_vs_evict exPCtx exC2St 0 none .registerR 0 5 1 (some (5, [1])) (some 6) 0
      (some 0) (by decide) (Or.inl rfl) (by decide) (by decide) (by decide)).1 (by decide)⟩

end RegAlloc

namespace RegAlloc

theorem FlagsMono.rfl (s : IonState) : FlagsMono s s :=
  ⟨le_refl _, fun _ _ h => h⟩

theorem FlagsMono.comp {a b c : IonState} (h1 : FlagsMono a b) (h2 : FlagsMono b c) :
    FlagsMono a c :=
  ⟨le_trans h1.1 h2.1, fun i hi hf => h2.2 i (lt_of_lt_of_le hi h1.1) (h1.2 i hi hf)⟩

theorem FlagsMono.stepSetBundle {s t : IonState} (h : FlagsMono s t) (b : Nat)
    (f : LiveBundleData → LiveBundleData) : FlagsMono s (t.setBundle b f) := h

theorem FlagsMono.stepSetPreg {s t : IonState} (h : FlagsMono s t) (p : Nat)
    (f : PRegData → PRegData) : FlagsMono s (t.setPreg p f) := h

theorem FlagsMono.stepSetSpillset {s t : IonState} (h : FlagsMono s t) (x : Nat)
    (f : SpillsetData → SpillsetData) : FlagsMono s (t.setSpillset x f) := h

theorem FlagsMono.stepSetVreg {s t : IonState} (h : FlagsMono s t) (v : Nat)
    (f : VRegData → VRegData) : FlagsMono s (t.setVreg v f) := h

theorem FlagsMono.stepQueue {s t : IonState} (h : FlagsMono s t)
    (q : List (Nat × Nat × Option Nat)) : FlagsMono s { t with allocationQueue := q } := h

theorem FlagsMono.stepSpilled {s t : IonState} (h : FlagsMono s t)
    (l : List Nat) : FlagsMono s { t with spilledBundles := l } := h

theorem FlagsMono.stepBundles {s t : IonState} (h : FlagsMono s t)
    (l : List LiveBundleData) : FlagsMono s { t with bundles := l } := h

theorem lrange_append (t : IonState) (l : List LiveRangeData) (i : Nat)
    (hi : i < t.ranges.length) :
    ({ t with ranges := t.ranges ++ l } : IonState).lrange i = t.lrange i := by
  simp [IonState.lrange, List.getD, List.getElem?_append_left hi]

theorem FlagsMono.stepAppendRanges {s t : IonState} (h : FlagsMono s t)
    (l : List LiveRangeData) : FlagsMono s { t with ranges := t.ranges ++ l } := by
  refine ⟨le_trans h.1 (by simp), fun i hi hf => ?_⟩
  have hlt : i < t.ranges.length := lt_of_lt_of_le hi h.1
  rw [lrange_append t l i hlt]
  exact h.2 i hi hf

theorem FlagsMono.stepCreateLR {s t : IonState} (h : FlagsMono s t) (r : CodeRange) :
    FlagsMono s (createLiveRange t r).2 :=
  h.stepAppendRanges _

theorem lrange_setLRange_self (t : IonState) (i : Nat) (f : LiveRangeData → LiveRangeData)
    (hi : i < t.ranges.length) : (t.setLRange i f).lrange i = f (t.lrange i) := by
  simp [IonState.setLRange, IonState.lrange, List.getD, List.getElem?_set, hi]

theorem lrange_setLRange_ne (t : IonState) (i j : Nat) (f : LiveRangeData → LiveRangeData)
    (hij : i ≠ j) : (t.setLRange i f).lrange j = t.lrange j := by
  simp [IonState.setLRange, IonState.lrange, List.getD, List.getElem?_set, hij]

theorem FlagsMono.stepSetLRange {s t : IonState} (h : FlagsMono s t) (i : Nat)
    (f : LiveRangeData → LiveRangeData)
    (hf : ∀ r, r.startsAtDef = true → (f r).startsAtDef = true) :
    FlagsMono s (t.setLRange i f) := by
  refine ⟨le_trans h.1 (by simp [IonState.setLRange]), fun j hj hfj => ?_⟩
  by_cases hij : i = j
  · subst hij
    by_cases hi : i < t.ranges.length
    · rw [lrange_setLRange_self t i f hi]
      exact hf _ (h.2 i hj hfj)
    · have : (t.setLRange i f).lrange i = t.lrange i := by
        simp [IonState.setLRange, IonState.lrange, List.getD]
        rw [List.set_eq_of_length_le (by omega)]
      rw [this]
      exact h.2 i hj hfj
  · rw [lrange_setLRange_ne t i j f hij]
    exact h.2 j hj hfj

theorem FlagsMono.stepRecomputeRange {s t : IonState} (h : FlagsMono s t) (i : Nat) :
    FlagsMono s (recomputeRangeProperties t i) := by
  unfold recomputeRangeProperties
  refine h.stepSetLRange i _ ?_
  intro r hr
  dsimp only
  cases r.uses with
  | nil => exact hr
  | cons u rest =>
    dsimp only
    split
    · rfl
    · exact hr

theorem FlagsMono.stepRecomputeBundle {s t : IonState} (h : FlagsMono s t) (b : Nat) :
    FlagsMono s (recomputeBundleProperties t b) :=
  h.stepSetBundle _ _

theorem FlagsMono.stepSpillBundle {s t : IonState} (h : FlagsMono s t) (b : Nat) (c : Bool) :
    FlagsMono s (getOrCreateSpillBundle t b c).2 := by
  unfold getOrCreateSpillBundle
  dsimp only
  split
  · exact h
  · split
    · exact ((h.stepBundles _).stepSetSpillset _ _).stepSetBundle _ _ |>.stepSpilled _
    · exact h

end RegAlloc

namespace RegAlloc

theorem FlagsMono.stepTryAlloc {s t : IonState} (h : FlagsMono s t) (b r : Nat)
    (c : Option Nat) : FlagsMono s (tryToAllocateBundleToReg t b r c).2 := by
  unfold tryToAllocateBundleToReg
  dsimp only
  split
  · exact h
  · exact h
  · split
    · exact h
    · exact (h.stepSetBundle _ _).stepSetPreg _ _

theorem FlagsMono.stepEvict {s t : IonState} (h : FlagsMono s t) (b : Nat) :
    FlagsMono s (evictBundle t b) := by
  unfold evictBundle
  split
  · exact h
  · exact ((h.stepSetBundle _ _).stepSetPreg _ _).stepQueue _

theorem FlagsMono.stepEvictFold {s t : IonState} (h : FlagsMono s t) :
    ∀ l : List Nat, FlagsMono s (l.foldl evictBundle t)
  | [] => h
  | b :: rest => by
    rw [List.foldl_cons]
    exact FlagsMono.stepEvictFold (h.stepEvict b) rest

theorem FlagsMono.stepSplitMiddle {s t : IonState} (h : FlagsMono s t) (bundle : Nat)
    (splitAt lastIdx : Nat) :
    ∀ l : List LREntry, FlagsMono s (splitMiddle t bundle splitAt lastIdx l).1
  | [] => h
  | hd :: tl => by
    unfold splitMiddle
    dsimp only
    split
    · refine ((((((h.stepCreateLR _).stepSetLRange _ _ ?_).stepSetLRange _ _ ?_).stepSetLRange
        _ _ ?_).stepRecomputeRange _ |>.stepRecomputeRange _ |>.stepSetLRange _ _
        ?_).stepSetBundle _ _).stepSetVreg _ _
      · intro q hq; exact hq
      · intro q hq; exact hq
      · intro q hq; exact hq
      · intro q hq; exact hq
    · exact h

end RegAlloc

namespace RegAlloc

theorem FlagsMono.stepTrimTail {s t : IonState} (h : FlagsMono s t) (bundle : Nat) :
    ∀ fuel : Nat, FlagsMono s (trimTail t bundle fuel)
  | 0 => h
  | fuel + 1 => by
    unfold trimTail
    dsimp only
    split
    · exact h
    · split
      · refine FlagsMono.stepTrimTail ?_ bundle fuel
        refine (((h.stepSpillBundle _ _).stepSetBundle _ _).stepSetBundle _ _).stepSetLRange
          _ _ ?_
        intro q hq
        exact hq
      · split
        · refine (((((((h.stepSpillBundle _ _).stepSetBundle _ _).stepSetLRange _ _
            ?_).stepCreateLR _).stepSetBundle _ _).stepSetLRange _ _ ?_).stepSetVreg _ _)
          · intro q hq; exact hq
          · intro q hq; exact hq
        · exact h

theorem FlagsMono.stepTrimHead {s t : IonState} (h : FlagsMono s t) (bundle : Nat) :
    ∀ fuel : Nat, FlagsMono s (trimHead t bundle fuel)
  | 0 => h
  | fuel + 1 => by
    unfold trimHead
    dsimp only
    split
    · exact h
    · split
      · exact h
      · split
        · refine FlagsMono.stepTrimHead ?_ bundle fuel
          refine (((h.stepSpillBundle _ _).stepSetBundle _ _).stepSetBundle _ _).stepSetLRange
            _ _ ?_
          intro q hq
          exact hq
        · split
          · refine (((((((h.stepSpillBundle _ _).stepSetBundle _ _).stepSetLRange _ _
              ?_).stepCreateLR _).stepSetBundle _ _).stepSetLRange _ _ ?_).stepSetVreg _ _)
            · intro q hq; exact hq
            · intro q hq; exact hq
          · exact h

theorem FlagsMono.stepSetLRangeFold {s t : IonState} (h : FlagsMono s t) (newBundleIdx : Nat) :
    ∀ l : List LREntry,
      FlagsMono s (l.foldl
        (fun acc e => acc.setLRange e.index fun r => { r with bundle := newBundleIdx }) t)
  | [] => h
  | e :: rest => by
    rw [List.foldl_cons]
    refine FlagsMono.stepSetLRangeFold ?_ newBundleIdx rest
    refine h.stepSetLRange _ _ ?_
    intro q hq
    exact hq

theorem FlagsMono.stepSplitRequeue {s t : IonState} (h : FlagsMono s t) (bundle : Nat)
    (splitAt : Nat) (regHint : Option Nat) :
    FlagsMono s (splitAndRequeueBundle t bundle splitAt regHint) := by
  unfold splitAndRequeueBundle
  dsimp only [createBundle]
  split
  · split
    · exact h.stepSetBundle _ _ |>.stepSplitMiddle _ _ _ _ |>.stepBundles _
        |>.stepSetBundle _ _ |>.stepSetLRangeFold _ _ |>.stepSetBundle _ _
        |>.stepTrimTail _ _ |>.stepTrimHead _ _
        |>.stepRecomputeBundle _ |>.stepQueue _ |>.stepRecomputeBundle _ |>.stepQueue _
    · exact h.stepSetBundle _ _ |>.stepSplitMiddle _ _ _ _ |>.stepBundles _
        |>.stepSetBundle _ _ |>.stepSetLRangeFold _ _ |>.stepSetBundle _ _
        |>.stepTrimTail _ _ |>.stepTrimHead _ _
        |>.stepRecomputeBundle _ |>.stepQueue _
  · split
    · exact h.stepSetBundle _ _ |>.stepSplitMiddle _ _ _ _ |>.stepBundles _
        |>.stepSetBundle _ _ |>.stepSetLRangeFold _ _ |>.stepSetBundle _ _
        |>.stepTrimTail _ _ |>.stepTrimHead _ _
        |>.stepRecomputeBundle _ |>.stepQueue _
    · exact h.stepSetBundle _ _ |>.stepSplitMiddle _ _ _ _ |>.stepBundles _
        |>.stepSetBundle _ _ |>.stepSetLRangeFold _ _ |>.stepSetBundle _ _
        |>.stepTrimTail _ _ |>.stepTrimHead _ _

theorem flagsMono_probePhase {s : IonState} (ctx : ProcessCtx) (bundle : Nat) :
    ∀ (l : List Nat) (st : IonState), FlagsMono s st →
      ∀ (evict : Option (Nat × List Nat)) (sc : Option Nat) (sp : Nat) (sr : Option Nat)
        (preg : Nat) (st' : IonState),
        probePhase ctx st bundle l evict sc sp sr = .allocatedP preg st' → FlagsMono s st'
  | [], st, h, evict, sc, sp, sr, preg, st', heq => by
    exact absurd heq (by unfold probePhase; intro hc; cases hc)
  | p :: rest, st, h, evict, sc, sp, sr, preg, st', heq => by
    unfold probePhase at heq
    dsimp only at heq
    split at heq
    case _ a st2 hmatch =>
      cases heq
      have h2 := congrArg Prod.snd hmatch
      dsimp only at h2
      exact h2 ▸ h.stepTryAlloc bundle p _
    case _ => exact flagsMono_probePhase ctx bundle rest st h _ _ _ _ preg st' heq
    case _ => exact flagsMono_probePhase ctx bundle rest st h _ _ _ _ preg st' heq
    case _ => exact flagsMono_probePhase ctx bundle rest st h _ _ _ _ preg st' heq

theorem flagsMono_processBundleLoop {s : IonState} (ctx : ProcessCtx) (bundle : Nat)
    (hintReg : Option Nat) (req : Requirement) (classOf : Nat) :
    ∀ (fuel attempts : Nat) (st : IonState), FlagsMono s st →
      FlagsMono s (processBundleLoop ctx bundle hintReg req classOf fuel attempts st).2
  | 0, _, st, h => h
  | fuel + 1, attempts, st, h => by
    rw [processBundleLoop_succ]
    dsimp only
    split
    · exact h
    · split
      · exact h.stepSetSpillset _ _
      · exact h.stepSpilled _
      · split
        case _ preg st' heq =>
          exact (flagsMono_probePhase ctx bundle _ st h _ _ _ _ preg st' heq).stepSetSpillset _ _
        case _ evict splitCost splitPoint splitReg heq =>
          split
          · exact h
          · exact h
          case _ pt reg hdec =>
            dsimp only
            exact h.stepSplitRequeue bundle pt reg
          case _ evictSet hdec =>
            exact flagsMono_processBundleLoop ctx bundle hintReg req classOf fuel
              (attempts + 1) (evictSet.foldl evictBundle st) (h.stepEvictFold evictSet)

theorem flagsMono_processBundle {s : IonState} (ctx : ProcessCtx) (st : IonState)
    (h : FlagsMono s st) (bundle : Nat) (regHint : Option Nat) :
    FlagsMono s (processBundle ctx st bundle regHint).2 := by
  unfold processBundle
  dsimp only
  split
  case _ splitPoint heqr =>
    split
    · exact h
    · dsimp only
      exact h.stepSplitRequeue bundle splitPoint regHint
  case _ req heqr =>
    split
    case _ spill st' hmatch =>
      have h2 := congrArg Prod.snd hmatch
      dsimp only at h2
      have h3 : FlagsMono s st' := h2 ▸ h.stepSpillBundle bundle false
      exact ((h3.stepSetBundle _ _).stepSetLRangeFold _ _).stepSetBundle _ _
    all_goals exact flagsMono_processBundleLoop ctx bundle _ _ _ _ _ st h

theorem allocStep_flagsMono : ∀ {s t : IonState}, AllocStep s t → FlagsMono s t
  | _, _, .tryAlloc st b r c => (FlagsMono.rfl st).stepTryAlloc b r c
  | _, _, .evictStep st b => (FlagsMono.rfl st).stepEvict b
  | _, _, .recomputeRange st i => (FlagsMono.rfl st).stepRecomputeRange i
  | _, _, .recomputeBundle st b => (FlagsMono.rfl st).stepRecomputeBundle b
  | _, _, .spillBundleStep st b c => (FlagsMono.rfl st).stepSpillBundle b c
  | _, _, .splitStep st b p hh => (FlagsMono.rfl st).stepSplitRequeue b p hh
  | _, _, .processStep ctx st b hh => flagsMono_processBundle ctx st (FlagsMono.rfl st) b hh

theorem reachable_flagsMono {s t : IonState} (h : Reachable s t) : FlagsMono s t := by
  induction h with
  | refl => exact FlagsMono.rfl s
  | tail hab hbc ih => exact ih.comp (allocStep_flagsMono hbc)

/-- C7: the StartsAtDef flag of a live range is monotone: in every state
reachable from s by allocator steps (try-allocate, evict, recompute range
or bundle properties, spill-bundle creation, split-and-requeue, or a whole
process_bundle call), a live range whose StartsAtDef flag is set in s
still has it set. -/
theorem claim_C7_starts_at_def_monotone (s t : IonState) (h : Reachable s t)
    (i : Nat) (hi : i < s.ranges.length) (hset : (s.lrange i).startsAtDef = true) :
    (t.lrange i).startsAtDef = true :=
  (reachable_flagsMono h).2 i hi hset

theorem claim_C7_witness :
    0 < exStDef.ranges.length ∧ (exStDef.lrange 0).startsAtDef = true ∧
      ((recomputeRangeProperties exStDef 0).lrange 0).startsAtDef = true :=
  ⟨by decide, by decide,
    claim_C7_starts_at_def_monotone exStDef (recomputeRangeProperties exStDef 0)
      (Relation.ReflTransGen.single (AllocStep.recomputeRange exStDef 0)) 0 (by decide)
      (by decide)⟩

/-! ## Probe characterization: accumulator-step lemmas -/

theorem setFirst_of_isSome {acc : ProbeAcc} (h : acc.firstConflict.isSome = true)
    (p : Nat) : setFirst acc p = acc := by
  unfold setFirst
  cases hf : acc.firstConflict with
  | none => rw [hf] at h; cases h
  | some q => rfl

theorem setFirst_isSome (acc : ProbeAcc) (p : Nat) :
    (setFirst acc p).firstConflict.isSome = true := by
  unfold setFirst
  cases hf : acc.firstConflict with
  | none => rfl
  | some q => rw [hf]; rfl

theorem setFirst_conflictSet (acc : ProbeAcc) (p : Nat) :
    (setFirst acc p).conflictSet = acc.conflictSet := by
  unfold setFirst
  cases hf : acc.firstConflict with
  | none => rfl
  | some q => rfl

theorem setFirst_conflicts (acc : ProbeAcc) (p : Nat) :
    (setFirst acc p).conflicts = acc.conflicts := by
  unfold setFirst
  cases hf : acc.firstConflict with
  | none => rfl
  | some q => rfl

theorem setFirst_maxW (acc : ProbeAcc) (p : Nat) :
    (setFirst acc p).maxW = acc.maxW := by
  unfold setFirst
  cases hf : acc.firstConflict with
  | none => rfl
  | some q => rfl

theorem rc_noop {st : IonState} {c : Option Nat} {acc : ProbeAcc} {cb p : Nat}
    (hmem : cb ∈ acc.conflictSet) (hfs : acc.firstConflict.isSome = true) :
    recordConflict st c acc cb p = some acc := by
  unfold recordConflict
  rw [if_pos (by simpa using hmem), setFirst_of_isSome hfs]

theorem rc_some_subset {st : IonState} {c : Option Nat} {acc acc' : ProbeAcc} {cb p : Nat}
    (h : recordConflict st c acc cb p = some acc') :
    ∀ b ∈ acc.conflictSet, b ∈ acc'.conflictSet := by
  intro b hb
  unfold recordConflict at h
  split at h
  · cases h
    rw [setFirst_conflictSet]
    exact hb
  · dsimp only at h
    split at h
    · split at h
      · cases h
      · cases h
        rw [setFirst_conflictSet]
        exact List.mem_cons_of_mem _ hb
    · cases h
      rw [setFirst_conflictSet]
      exact List.mem_cons_of_mem _ hb

theorem rc_some_mem {st : IonState} {c : Option Nat} {acc acc' : ProbeAcc} {cb p : Nat}
    (h : recordConflict st c acc cb p = some acc') : cb ∈ acc'.conflictSet := by
  unfold recordConflict at h
  split at h
  case isTrue hc =>
    cases h
    rw [setFirst_conflictSet]
    simpa using hc
  · dsimp only at h
    split at h
    · split at h
      · cases h
      · cases h
        rw [setFirst_conflictSet]
        exact List.mem_cons_self _ _
    · cases h
      rw [setFirst_conflictSet]
      exact List.mem_cons_self _ _

theorem rc_some_isSome {st : IonState} {c : Option Nat} {acc acc' : ProbeAcc} {cb p : Nat}
    (h : recordConflict st c acc cb p = some acc') : acc'.firstConflict.isSome = true := by
  unfold recordConflict at h
  split at h
  · cases h
    exact setFirst_isSome _ _
  · dsimp only at h
    split at h
    · split at h
      · cases h
      · cases h
        exact setFirst_isSome _ _
    · cases h
      exact setFirst_isSome _ _

theorem rc_some_conflicts {st : IonState} {c : Option Nat} {acc acc' : ProbeAcc} {cb p : Nat}
    (h : recordConflict st c acc cb p = some acc') :
    ∃ l, acc'.conflicts = acc.conflicts ++ l := by
  unfold recordConflict at h
  split at h
  · cases h
    exact ⟨[], by rw [setFirst_conflicts, List.append_nil]⟩
  · dsimp only at h
    split at h
    · split at h
      · cases h
      · cases h
        exact ⟨[cb], by rw [setFirst_conflicts]⟩
    · cases h
      exact ⟨[cb], by rw [setFirst_conflicts]⟩

theorem noop_rc_mono {st : IonState} {c : Option Nat} {acc acc' : ProbeAcc} {cb p : Nat}
    {e : BEntry} (hn : Noop st acc e) (h : recordConflict st c acc cb p = some acc') :
    Noop st acc' e := by
  obtain ⟨lr, he, hmem, hfs⟩ := hn
  exact ⟨lr, he, rc_some_subset h _ hmem, rc_some_isSome h⟩

theorem specStep_noop {st : IonState} {c : Option Nat} {acc : ProbeAcc} {key : CodeRange}
    {e : BEntry} (hn : Noop st acc e) : specStep st c acc key e = .cont acc := by
  obtain ⟨lr, he, hmem, hfs⟩ := hn
  unfold specStep
  rw [he]
  dsimp only
  rw [rc_noop hmem hfs]

theorem specStep_cont_noop_mono {st : IonState} {c : Option Nat} {acc acc' : ProbeAcc}
    {key : CodeRange} {f e : BEntry} (h : specStep st c acc key f = .cont acc')
    (hn : Noop st acc e) : Noop st acc' e := by
  unfold specStep at h
  split at h
  · cases h
  · split at h
    · cases h
    · cases h
      exact noop_rc_mono hn (by assumption)

theorem specFold_cons (st : IonState) (c : Option Nat) (key : CodeRange) (e : BEntry)
    (rest : List (CodeRange × BEntry)) (acc : ProbeAcc) :
    specFold st c ((key, e) :: rest) acc =
      match specStep st c acc key e with
      | .cont acc' => specFold st c rest acc'
      | .fixedS w p => .fixedRes w p
      | .highS => .highRes := rfl

theorem specFold_append (st : IonState) (c : Option Nat) :
    ∀ (l1 l2 : List (CodeRange × BEntry)) (acc : ProbeAcc),
      specFold st c (l1 ++ l2) acc =
        match specFold st c l1 acc with
        | .done a => specFold st c l2 a
        | x => x
  | [], l2, acc => rfl
  | (key, e) :: rest, l2, acc => by
    rw [List.cons_append, specFold_cons, specFold_cons]
    split
    · exact specFold_append st c rest l2 _
    · rfl
    · rfl

theorem specFold_noops {st : IonState} {c : Option Nat} :
    ∀ {l : List (CodeRange × BEntry)} {acc : ProbeAcc},
      (∀ p ∈ l, Noop st acc p.2) → specFold st c l acc = .done acc
  | [], acc, _ => rfl
  | (key, e) :: rest, acc, h => by
    rw [specFold_cons, specStep_noop (h (key, e) (List.mem_cons_self _ _))]
    exact specFold_noops fun p hp => h p (List.mem_cons_of_mem _ hp)

theorem specFold_done_noop_mono {st : IonState} {c : Option Nat} :
    ∀ {l : List (CodeRange × BEntry)} {acc acc' : ProbeAcc} {e : BEntry},
      specFold st c l acc = .done acc' → Noop st acc e → Noop st acc' e
  | [], acc, acc', e, h, hn => by
    cases h
    exact hn
  | (key, f) :: rest, acc, acc', e, h, hn => by
    rw [specFold_cons] at h
    split at h
    case _ acc2 hstep =>
      exact specFold_done_noop_mono h (specStep_cont_noop_mono hstep hn)
    · cases h
    · cases h

/-! ## Probe characterization: one range without re-seek -/

theorem rangePairs_append (key : CodeRange) (l1 l2 : List BEntry) :
    rangePairs key (l1 ++ l2) = rangePairs key l1 ++ rangePairs key l2 := by
  unfold rangePairs
  rw [List.filter_append, List.map_append]

theorem rangePairs_cons_overlap {key : CodeRange} {e : BEntry} (l : List BEntry)
    (h : key.overlaps e.1) : rangePairs key (e :: l) = (key, e) :: rangePairs key l := by
  simp [rangePairs, List.filter_cons, h]

theorem rangePairs_cons_nonoverlap {key : CodeRange} {e : BEntry} (l : List BEntry)
    (h : ¬ key.overlaps e.1) : rangePairs key (e :: l) = rangePairs key l := by
  simp [rangePairs, List.filter_cons, h]

theorem rangePairs_nil_of_no_overlap {key : CodeRange} {l : List BEntry}
    (h : ∀ e ∈ l, ¬ key.overlaps e.1) : rangePairs key l = [] := by
  unfold rangePairs
  rw [List.filter_eq_nil_iff.mpr fun e he => by simpa using h e he]
  rfl

theorem rangePairs_mem {key : CodeRange} {l : List BEntry} {p : CodeRange × BEntry}
    (h : p ∈ rangePairs key l) : p.1 = key ∧ p.2 ∈ l ∧ key.overlaps p.2.1 := by
  unfold rangePairs at h
  obtain ⟨e, he, rfl⟩ := List.mem_map.mp h
  exact ⟨rfl, (List.mem_filter.mp he).1, by simpa using (List.mem_filter.mp he).2⟩

theorem probeRangeNR_cons (st : IonState) (c : Option Nat) (key : CodeRange) (e : BEntry)
    (rest : List BEntry) (skips : Nat) (acc : ProbeAcc) :
    probeRangeNR st c key (e :: rest) skips acc =
      if keyLt e.1 key then
        probeRangeNR st c key rest (if skips + 1 ≥ 16 then 0 else skips + 1) acc
      else if key.to_ ≤ e.1.from_ then .next acc (e :: rest)
      else match e.2 with
        | none => .fixedC acc.maxW e.1.from_
        | some lr =>
          match recordConflict st c acc (st.lrange lr).bundle (max e.1.from_ key.from_) with
          | none => .highC
          | some acc' => probeRangeNR st c key rest 0 acc' := rfl

theorem probeRangeNR_skips (st : IonState) (c : Option Nat) (key : CodeRange) :
    ∀ (l : List BEntry) (s s' : Nat) (acc : ProbeAcc),
      probeRangeNR st c key l s acc = probeRangeNR st c key l s' acc
  | [], _, _, _ => rfl
  | e :: rest, s, s', acc => by
    rw [probeRangeNR_cons, probeRangeNR_cons]
    by_cases h1 : keyLt e.1 key
    · rw [if_pos h1, if_pos h1]
      rw [probeRangeNR_skips st c key rest (if s + 1 ≥ 16 then 0 else s + 1) 0 acc,
        probeRangeNR_skips st c key rest (if s' + 1 ≥ 16 then 0 else s' + 1) 0 acc]
    · rw [if_neg h1, if_neg h1]

theorem probeRangeNR_spec (st : IonState) (c : Option Nat) (key : CodeRange)
    (hkey : key.from_ < key.to_) :
    ∀ (l : List BEntry), sortedNO l → entriesWF l → ∀ (skips : Nat) (acc : ProbeAcc),
      (∀ w p, specFold st c (rangePairs key l) acc = .fixedRes w p →
          probeRangeNR st c key l skips acc = .fixedC w p) ∧
      (specFold st c (rangePairs key l) acc = .highRes →
          probeRangeNR st c key l skips acc = .highC) ∧
      (∀ acc', specFold st c (rangePairs key l) acc = .done acc' →
        ∃ consumed iter2, l = consumed ++ iter2 ∧
          (∀ e ∈ consumed, e.1.to_ ≤ key.from_ ∨ Noop st acc' e) ∧
          ((iter2 = [] ∧ probeRangeNR st c key l skips acc = .stopAll acc') ∨
            probeRangeNR st c key l skips acc = .next acc' iter2))
  | [], _, _, skips, acc => by
    refine ⟨?_, ?_, ?_⟩
    · intro w p h
      cases h
    · intro h
      cases h
    · intro acc' h
      cases h
      exact ⟨[], [], rfl, by simp, Or.inl ⟨rfl, rfl⟩⟩
  | e :: rest, hs, hw, skips, acc => by
    rw [sortedNO, List.pairwise_cons] at hs
    have hs' : sortedNO rest := hs.2
    have hw' : entriesWF rest := fun f hf => hw f (List.mem_cons_of_mem _ hf)
    have hewf : e.1.from_ < e.1.to_ := hw e (List.mem_cons_self _ _)
    by_cases h1 : keyLt e.1 key
    · have hnov : ¬ key.overlaps e.1 := by
        unfold keyLt at h1
        unfold CodeRange.overlaps
        omega
      rw [rangePairs_cons_nonoverlap rest hnov, probeRangeNR_cons, if_pos h1,
        probeRangeNR_skips st c key rest (if skips + 1 ≥ 16 then 0 else skips + 1) 0 acc]
      obtain ⟨ih1, ih2, ih3⟩ := probeRangeNR_spec st c key hkey rest hs' hw' 0 acc
      refine ⟨ih1, ih2, ?_⟩
      intro acc' h
      obtain ⟨consumed, iter2, hsplit, hcond, hres⟩ := ih3 acc' h
      refine ⟨e :: consumed, iter2, by rw [List.cons_append, hsplit], ?_, hres⟩
      intro f hf
      rcases List.mem_cons.mp hf with rfl | hf'
      · exact Or.inl h1
      · exact hcond f hf'
    · by_cases h2 : key.to_ ≤ e.1.from_
      · have hnov_all : ∀ f ∈ e :: rest, ¬ key.overlaps f.1 := by
          intro f hf
          rcases List.mem_cons.mp hf with rfl | hf'
          · unfold CodeRange.overlaps
            omega
          · have := hs.1 f hf'
            unfold CodeRange.overlaps
            omega
        rw [rangePairs_nil_of_no_overlap hnov_all, probeRangeNR_cons, if_neg h1, if_pos h2]
        refine ⟨?_, ?_, ?_⟩
        · intro w p h
          cases h
        · intro h
          cases h
        · intro acc' h
          cases h
          exact ⟨[], e :: rest, rfl, by simp, Or.inr rfl⟩
      · have hov : key.overlaps e.1 := by
          unfold keyLt at h1
          unfold CodeRange.overlaps
          omega
        rw [rangePairs_cons_overlap rest hov, specFold_cons, probeRangeNR_cons, if_neg h1,
          if_neg h2]
        cases he2 : e.2 with
        | none =>
          have hstep : specStep st c acc key e = .fixedS acc.maxW e.1.from_ := by
            unfold specStep
            rw [he2]
          rw [hstep]
          dsimp only
          refine ⟨?_, ?_, ?_⟩
          · intro w p h
            cases h
            rfl
          · intro h
            cases h
          · intro acc' h
            cases h
        | some lr =>
          have hstep : specStep st c acc key e =
              match recordConflict st c acc (st.lrange lr).bundle (max e.1.from_ key.from_) with
              | none => .highS
              | some acc2 => .cont acc2 := by
            unfold specStep
            rw [he2]
          rw [hstep]
          dsimp only
          cases hrc : recordConflict st c acc (st.lrange lr).bundle (max e.1.from_ key.from_) with
          | none =>
            refine ⟨?_, ?_, ?_⟩
            · intro w p h
              cases h
            · intro h
              rfl
            · intro acc' h
              cases h
          | some acc2 =>
            obtain ⟨ih1, ih2, ih3⟩ := probeRangeNR_spec st c key hkey rest hs' hw' 0 acc2
            refine ⟨ih1, ih2, ?_⟩
            intro acc' h
            obtain ⟨consumed, iter2, hsplit, hcond, hres⟩ := ih3 acc' h
            refine ⟨e :: consumed, iter2, by rw [List.cons_append, hsplit], ?_, hres⟩
            intro f hf
            rcases List.mem_cons.mp hf with rfl | hf'
            · exact Or.inr (specFold_done_noop_mono h
                ⟨lr, he2, rc_some_mem hrc, rc_some_isSome hrc⟩)
            · exact hcond f hf'

/-! ## Probe characterization: one range with the re-seek -/

theorem sortedNO_suffix {pre l : List BEntry} (h : sortedNO (pre ++ l)) : sortedNO l := by
  rw [sortedNO, List.pairwise_append] at h
  exact h.2.1

theorem btree_takeWhile_seek (btree : List BEntry) (p : Nat) :
    (btree.takeWhile fun e => decide (e.1.to_ ≤ p)) ++ seek btree p = btree := by
  unfold seek
  exact List.takeWhile_append_dropWhile _ _

theorem specFold_seek_eq (st : IonState) (c : Option Nat) {btree pre l : List BEntry}
    {key : CodeRange} {acc : ProbeAcc} (hsplit : btree = pre ++ l)
    (hpre : ∀ f ∈ pre, key.overlaps f.1 → Noop st acc f) :
    specFold st c (rangePairs key (seek btree key.from_)) acc =
      specFold st c (rangePairs key l) acc := by
  have htw : rangePairs key (btree.takeWhile fun e => decide (e.1.to_ ≤ key.from_)) = [] := by
    refine rangePairs_nil_of_no_overlap ?_
    intro e he
    have hle : e.1.to_ ≤ key.from_ := by simpa using List.mem_takeWhile_imp he
    unfold CodeRange.overlaps
    omega
  have hseekPairs : rangePairs key (seek btree key.from_) =
      rangePairs key pre ++ rangePairs key l := by
    have h2 := congrArg (rangePairs key) (btree_takeWhile_seek btree key.from_)
    rw [rangePairs_append, htw, List.nil_append] at h2
    rw [h2, hsplit, rangePairs_append]
  have hpreFold : specFold st c (rangePairs key pre) acc = .done acc := by
    refine specFold_noops ?_
    intro q hq
    obtain ⟨hq1, hq2, hq3⟩ := rangePairs_mem hq
    exact hpre q.2 hq2 hq3
  rw [hseekPairs, specFold_append, hpreFold]

theorem probeRangeR_cons (st : IonState) (c : Option Nat) (btree : List BEntry)
    (key : CodeRange) (e : BEntry) (rest : List BEntry) (skips : Nat) (acc : ProbeAcc) :
    probeRangeR st c btree key (e :: rest) skips acc =
      if keyLt e.1 key then
        if skips + 1 ≥ 16 then probeRangeNR st c key (seek btree key.from_) 0 acc
        else probeRangeR st c btree key rest (skips + 1) acc
      else if key.to_ ≤ e.1.from_ then .next acc (e :: rest)
      else match e.2 with
        | none => .fixedC acc.maxW e.1.from_
        | some lr =>
          match recordConflict st c acc (st.lrange lr).bundle (max e.1.from_ key.from_) with
          | none => .highC
          | some acc' => probeRangeR st c btree key rest 0 acc' := rfl

theorem probeRangeR_spec (st : IonState) (c : Option Nat) (btree : List BEntry)
    (hbs : sortedNO btree) (hbw : entriesWF btree) (key : CodeRange)
    (hkey : key.from_ < key.to_) :
    ∀ (l pre : List BEntry), btree = pre ++ l → ∀ (acc : ProbeAcc),
      (∀ f ∈ pre, key.overlaps f.1 → Noop st acc f) → ∀ (skips : Nat),
      (∀ w p, specFold st c (rangePairs key l) acc = .fixedRes w p →
          probeRangeR st c btree key l skips acc = .fixedC w p) ∧
      (specFold st c (rangePairs key l) acc = .highRes →
          probeRangeR st c btree key l skips acc = .highC) ∧
      (∀ acc', specFold st c (rangePairs key l) acc = .done acc' →
        ∃ pre2 iter2, btree = pre2 ++ iter2 ∧
          (∀ e ∈ pre2, e ∈ pre ∨ e.1.to_ ≤ key.from_ ∨ Noop st acc' e) ∧
          ((iter2 = [] ∧ probeRangeR st c btree key l skips acc = .stopAll acc') ∨
            probeRangeR st c btree key l skips acc = .next acc' iter2))
  | [], pre, hsplit, acc, hpre, skips => by
    refine ⟨?_, ?_, ?_⟩
    · intro w p h
      cases h
    · intro h
      cases h
    · intro acc' h
      cases h
      exact ⟨pre, [], hsplit, fun e he => Or.inl he, Or.inl ⟨rfl, rfl⟩⟩
  | e :: rest, pre, hsplit, acc, hpre, skips => by
    have hsl : sortedNO (e :: rest) := sortedNO_suffix (hsplit ▸ hbs)
    have hwl : entriesWF (e :: rest) := fun f hf =>
      hbw f (hsplit ▸ List.mem_append_right pre hf)
    rw [sortedNO, List.pairwise_cons] at hsl
    have hewf : e.1.from_ < e.1.to_ := hwl e (List.mem_cons_self _ _)
    by_cases h1 : keyLt e.1 key
    · have hnov : ¬ key.overlaps e.1 := by
        unfold keyLt at h1
        unfold CodeRange.overlaps
        omega
      have hpre' : ∀ f ∈ pre ++ [e], key.overlaps f.1 → Noop st acc f := by
        intro f hf hovf
        rcases List.mem_append.mp hf with hf' | hf'
        · exact hpre f hf' hovf
        · rw [List.mem_singleton] at hf'
          subst hf'
          exact absurd hovf hnov
      have hsplit' : btree = (pre ++ [e]) ++ rest := by
        rw [hsplit, List.append_assoc, List.singleton_append]
      rw [rangePairs_cons_nonoverlap rest hnov, probeRangeR_cons, if_pos h1]
      by_cases h16 : skips + 1 ≥ 16
      · rw [if_pos h16]
        have hS : sortedNO (seek btree key.from_) :=
          sortedNO_suffix ((btree_takeWhile_seek btree key.from_).symm ▸ hbs)
        have hSw : entriesWF (seek btree key.from_) := fun f hf =>
          hbw f ((btree_takeWhile_seek btree key.from_).symm ▸
            List.mem_append_right _ hf)
        have hEq := specFold_seek_eq st c hsplit' hpre'
        obtain ⟨nr1, nr2, nr3⟩ := probeRangeNR_spec st c key hkey
          (seek btree key.from_) hS hSw 0 acc
        refine ⟨?_, ?_, ?_⟩
        · intro w p h
          exact nr1 w p (by rw [hEq]; exact h)
        · intro h
          exact nr2 (by rw [hEq]; exact h)
        · intro acc' h
          obtain ⟨consumed, iter2, hSsplit, hcond, hres⟩ := nr3 acc' (by rw [hEq]; exact h)
          refine ⟨(btree.takeWhile fun x => decide (x.1.to_ ≤ key.from_)) ++ consumed, iter2,
            ?_, ?_, hres⟩
          · rw [List.append_assoc, ← hSsplit, btree_takeWhile_seek]
          · intro f hf
            rcases List.mem_append.mp hf with hf' | hf'
            · exact Or.inr (Or.inl (by simpa using List.mem_takeWhile_imp hf'))
            · rcases hcond f hf' with hc | hc
              · exact Or.inr (Or.inl hc)
              · exact Or.inr (Or.inr hc)
      · rw [if_neg h16]
        obtain ⟨ih1, ih2, ih3⟩ := probeRangeR_spec st c btree hbs hbw key hkey rest
          (pre ++ [e]) hsplit' acc hpre' (skips + 1)
        refine ⟨ih1, ih2, ?_⟩
        intro acc' h
        obtain ⟨pre2, iter2, hsp2, hcond, hres⟩ := ih3 acc' h
        refine ⟨pre2, iter2, hsp2, ?_, hres⟩
        intro f hf
        rcases hcond f hf with hc | hc | hc
        · rcases List.mem_append.mp hc with hc' | hc'
          · exact Or.inl hc'
          · rw [List.mem_singleton] at hc'
            subst hc'
            exact Or.inr (Or.inl h1)
        · exact Or.inr (Or.inl hc)
        · exact Or.inr (Or.inr hc)
    · by_cases h2 : key.to_ ≤ e.1.from_
      · have hnov_all : ∀ f ∈ e :: rest, ¬ key.overlaps f.1 := by
          intro f hf
          rcases List.mem_cons.mp hf with rfl | hf'
          · unfold CodeRange.overlaps
            omega
          · have := hsl.1 f hf'
            unfold CodeRange.overlaps
            omega
        rw [rangePairs_nil_of_no_overlap hnov_all, probeRangeR_cons, if_neg h1, if_pos h2]
        refine ⟨?_, ?_, ?_⟩
        · intro w p h
          cases h
        · intro h
          cases h
        · intro acc' h
          cases h
          exact ⟨pre, e :: rest, hsplit, fun f hf => Or.inl hf, Or.inr rfl⟩
      · have hov : key.overlaps e.1 := by
          unfold keyLt at h1
          unfold CodeRange.overlaps
          omega
        rw [rangePairs_cons_overlap rest hov, specFold_cons, probeRangeR_cons, if_neg h1,
          if_neg h2]
        cases he2 : e.2 with
        | none =>
          have hstep : specStep st c acc key e = .fixedS acc.maxW e.1.from_ := by
            unfold specStep
            rw [he2]
          rw [hstep]
          dsimp only
          refine ⟨?_, ?_, ?_⟩
          · intro w p h
            cases h
            rfl
          · intro h
            cases h
          · intro acc' h
            cases h
        | some lr =>
          have hstep : specStep st c acc key e =
              match recordConflict st c acc (st.lrange lr).bundle (max e.1.from_ key.from_) with
              | none => .highS
              | some acc2 => .cont acc2 := by
            unfold specStep
            rw [he2]
          rw [hstep]
          dsimp only
          cases hrc : recordConflict st c acc (st.lrange lr).bundle (max e.1.from_ key.from_) with
          | none =>
            refine ⟨?_, ?_, ?_⟩
            · intro w p h
              cases h
            · intro h
              rfl
            · intro acc' h
              cases h
          | some acc2 =>
            have hpre' : ∀ f ∈ pre ++ [e], key.overlaps f.1 → Noop st acc2 f := by
              intro f hf hovf
              rcases List.mem_append.mp hf with hf' | hf'
              · exact noop_rc_mono (hpre f hf' hovf) hrc
              · rw [List.mem_singleton] at hf'
                subst hf'
                exact ⟨lr, he2, rc_some_mem hrc, rc_some_isSome hrc⟩
            have hsplit' : btree = (pre ++ [e]) ++ rest := by
              rw [hsplit, List.append_assoc, List.singleton_append]
            obtain ⟨ih1, ih2, ih3⟩ := probeRangeR_spec st c btree hbs hbw key hkey rest
              (pre ++ [e]) hsplit' acc2 hpre' 0
            refine ⟨ih1, ih2, ?_⟩
            intro acc' h
            obtain ⟨pre2, iter2, hsp2, hcond, hres⟩ := ih3 acc' h
            refine ⟨pre2, iter2, hsp2, ?_, hres⟩
            intro f hf
            rcases hcond f hf with hc | hc | hc
            · rcases List.mem_append.mp hc with hc' | hc'
              · exact Or.inl hc'
              · rw [List.mem_singleton] at hc'
                subst hc'
                exact Or.inr (Or.inr (specFold_done_noop_mono h
                  ⟨lr, he2, rc_some_mem hrc, rc_some_isSome hrc⟩))
            · exact Or.inr (Or.inl hc)
            · exact Or.inr (Or.inr hc)

/-! ## Probe characterization: the whole probe -/

theorem conflictPairs_cons (r : LREntry) (rs : List LREntry) (btree : List BEntry) :
    conflictPairs (r :: rs) btree = rangePairs r.range btree ++ conflictPairs rs btree := by
  simp [conflictPairs, rangePairs]

theorem conflictPairs_mem {rs : List LREntry} {btree : List BEntry}
    {p : CodeRange × BEntry} (h : p ∈ conflictPairs rs btree) :
    ∃ r ∈ rs, p.1 = r.range ∧ p.2 ∈ btree ∧ r.range.overlaps p.2.1 := by
  unfold conflictPairs at h
  obtain ⟨r, hr, hp⟩ := List.mem_flatMap.mp h
  obtain ⟨e, he, rfl⟩ := List.mem_map.mp hp
  exact ⟨r, hr, rfl, (List.mem_filter.mp he).1, by simpa using (List.mem_filter.mp he).2⟩

theorem probeRanges_cons (st : IonState) (c : Option Nat) (btree : List BEntry)
    (r : LREntry) (rs : List LREntry) (l : List BEntry) (acc : ProbeAcc) :
    probeRanges st c btree (r :: rs) l acc =
      match probeRangeR st c btree r.range l 0 acc with
      | .stopAll acc' => .done acc'
      | .next acc' iter' => probeRanges st c btree rs iter' acc'
      | .fixedC w p => .fixedRes w p
      | .highC => .highRes := rfl

theorem probeRanges_eq_specFold (st : IonState) (c : Option Nat) (btree : List BEntry)
    (hbs : sortedNO btree) (hbw : entriesWF btree) :
    ∀ (rs : List LREntry) (l pre : List BEntry) (acc : ProbeAcc),
      btree = pre ++ l → lrSorted rs → lrWF rs →
      (∀ e ∈ pre, ∀ r ∈ rs, r.range.overlaps e.1 → Noop st acc e) →
      probeRanges st c btree rs l acc = specFold st c (conflictPairs rs btree) acc
  | [], l, pre, acc, hsplit, _, _, _ => rfl
  | r :: rs', l, pre, acc, hsplit, hlrs, hlrw, hpre => by
    rw [lrSorted, List.pairwise_cons] at hlrs
    have hkey : r.range.from_ < r.range.to_ := hlrw r (List.mem_cons_self _ _)
    have hlrs' : lrSorted rs' := hlrs.2
    have hlrw' : lrWF rs' := fun q hq => hlrw q (List.mem_cons_of_mem _ hq)
    have hEqRange : specFold st c (rangePairs r.range btree) acc =
        specFold st c (rangePairs r.range l) acc := by
      rw [hsplit, rangePairs_append, specFold_append]
      have hnp : specFold st c (rangePairs r.range pre) acc = .done acc := by
        refine specFold_noops ?_
        intro q hq
        obtain ⟨hq1, hq2, hq3⟩ := rangePairs_mem hq
        exact hpre q.2 hq2 r (List.mem_cons_self _ _) hq3
      rw [hnp]
    rw [probeRanges_cons, conflictPairs_cons, specFold_append, hEqRange]
    obtain ⟨r1, r2, r3⟩ := probeRangeR_spec st c btree hbs hbw r.range hkey l pre hsplit acc
      (fun f hf hov => hpre f hf r (List.mem_cons_self _ _) hov) 0
    cases hsf : specFold st c (rangePairs r.range l) acc with
    | fixedRes w p =>
      rw [r1 w p hsf]
    | highRes =>
      rw [r2 hsf]
    | done acc' =>
      obtain ⟨pre2, iter2, hsp2, hcond, hres⟩ := r3 acc' hsf
      have hnoop' : ∀ e ∈ pre2, ∀ r2 ∈ rs', r2.range.overlaps e.1 → Noop st acc' e := by
        intro e he r2 hr2 hov
        rcases hcond e he with hc | hc | hc
        · exact specFold_done_noop_mono hsf (hpre e hc r2 (List.mem_cons_of_mem _ hr2) hov)
        · exfalso
          have hr12 : r.range.to_ ≤ r2.range.from_ := hlrs.1 r2 hr2
          unfold CodeRange.overlaps at hov
          omega
        · exact hc
      rcases hres with ⟨hiter, hstop⟩ | hnext
      · rw [hstop]
        dsimp only
        have hall : specFold st c (conflictPairs rs' btree) acc' = .done acc' := by
          refine specFold_noops ?_
          intro q hq
          obtain ⟨r2, hr2, hq1, hq2, hq3⟩ := conflictPairs_mem hq
          have hq2' : q.2 ∈ pre2 := by
            rw [hsp2, hiter, List.append_nil] at hq2
            exact hq2
          exact hnoop' q.2 hq2' r2 hr2 (hq1 ▸ hq3)
        rw [hall]
      · rw [hnext]
        dsimp only
        exact probeRanges_eq_specFold st c btree hbs hbw rs' iter2 pre2 acc' hsp2 hlrs'
          hlrw' hnoop'

/-! ## Probe characterization: from the probe to try_to_allocate_bundle_to_reg -/

theorem tryAlloc_probe_eq (st : IonState) (bundle reg : Nat) (c : Option Nat)
    (hbs : sortedNO (st.preg reg).allocations) (hbw : entriesWF (st.preg reg).allocations)
    (hls : lrSorted (st.bundle bundle).ranges) (hlw : lrWF (st.bundle bundle).ranges) :
    probeRanges st c (st.preg reg).allocations (st.bundle bundle).ranges
        (seek (st.preg reg).allocations
          ((st.bundle bundle).ranges.headD ⟨⟨0, 0⟩, 0⟩).range.from_)
        ⟨[], [], 0, none⟩ =
      specFold st c (conflictPairs (st.bundle bundle).ranges (st.preg reg).allocations)
        ⟨[], [], 0, none⟩ := by
  refine probeRanges_eq_specFold st c _ hbs hbw _ _
    ((st.preg reg).allocations.takeWhile fun e =>
      decide (e.1.to_ ≤ ((st.bundle bundle).ranges.headD ⟨⟨0, 0⟩, 0⟩).range.from_)) _
    (btree_takeWhile_seek _ _).symm hls hlw ?_
  intro e he r hr hov
  exfalso
  have hle : e.1.to_ ≤ ((st.bundle bundle).ranges.headD ⟨⟨0, 0⟩, 0⟩).range.from_ := by
    simpa using List.mem_takeWhile_imp he
  cases hranges : (st.bundle bundle).ranges with
  | nil =>
    rw [hranges] at hr
    cases hr
  | cons r0 rest =>
    rw [hranges] at hr hle hls hlw
    rw [List.headD_cons] at hle
    have h0 : r0.range.from_ < r0.range.to_ := hlw r0 (List.mem_cons_self _ _)
    rcases List.mem_cons.mp hr with rfl | hr'
    · unfold CodeRange.overlaps at hov
      omega
    · rw [lrSorted, List.pairwise_cons] at hls
      have h01 : r0.range.to_ ≤ r.range.from_ := hls.1 r hr'
      unfold CodeRange.overlaps at hov
      omega

theorem conflictPairs_eq_nil {rs : List LREntry} {btree : List BEntry} :
    conflictPairs rs btree = [] ↔
      ∀ r ∈ rs, ∀ e ∈ btree, ¬ r.range.overlaps e.1 := by
  constructor
  · intro h r hr e he hov
    have : (r.range, e) ∈ conflictPairs rs btree := by
      unfold conflictPairs
      refine List.mem_flatMap.mpr ⟨r, hr, ?_⟩
      exact List.mem_map.mpr ⟨e, List.mem_filter.mpr ⟨he, by simpa using hov⟩, rfl⟩
    rw [h] at this
    cases this
  · intro h
    cases hcp : conflictPairs rs btree with
    | nil => rfl
    | cons p rest =>
      exfalso
      have hp : p ∈ conflictPairs rs btree := by rw [hcp]; exact List.mem_cons_self _ _
      obtain ⟨r, hr, hp1, hp2, hp3⟩ := conflictPairs_mem hp
      exact h r hr p.2 hp2 hp3

theorem specStep_cont_conflicts {st : IonState} {c : Option Nat} {acc acc2 : ProbeAcc}
    {key : CodeRange} {e : BEntry} (h : specStep st c acc key e = .cont acc2) :
    ∃ l, acc2.conflicts = acc.conflicts ++ l := by
  unfold specStep at h
  split at h
  · cases h
  · split at h
    · cases h
    · cases h
      exact rc_some_conflicts (by assumption)

theorem specFold_done_conflicts {st : IonState} {c : Option Nat} :
    ∀ {l : List (CodeRange × BEntry)} {acc acc' : ProbeAcc},
      specFold st c l acc = .done acc' → ∃ suf, acc'.conflicts = acc.conflicts ++ suf
  | [], acc, acc', h => by
    cases h
    exact ⟨[], (List.append_nil _).symm⟩
  | (key, e) :: rest, acc, acc', h => by
    rw [specFold_cons] at h
    split at h
    case _ acc2 hstep =>
      obtain ⟨l1, h1⟩ := specStep_cont_conflicts hstep
      obtain ⟨l2, h2⟩ := specFold_done_conflicts h
      exact ⟨l1 ++ l2, by rw [h2, h1, List.append_assoc]⟩
    · cases h
    · cases h

theorem btreeInsert_self (k : CodeRange) (v : Option Nat) :
    ∀ l : List BEntry, (k, v) ∈ btreeInsert k v l
  | [] => List.mem_cons_self _ _
  | e :: rest => by
    unfold btreeInsert
    split
    · exact List.mem_cons_of_mem _ (btreeInsert_self k v rest)
    · split
      · exact List.mem_cons_self _ _
      · exact List.mem_cons_self _ _

theorem btreeInsert_preserve {k : CodeRange} {e : BEntry} (v : Option Nat)
    (hne : ¬ k.overlaps e.1) :
    ∀ l : List BEntry, e ∈ l → e ∈ btreeInsert k v l
  | f :: rest, hmem => by
    unfold btreeInsert
    split
    · rcases List.mem_cons.mp hmem with rfl | h'
      · exact List.mem_cons_self _ _
      · exact List.mem_cons_of_mem _ (btreeInsert_preserve v hne rest h')
    · split
      · exact List.mem_cons_of_mem _ hmem
      · rcases List.mem_cons.mp hmem with rfl | h'
        · exfalso
          unfold CodeRange.overlaps at hne
          omega
        · exact List.mem_cons_of_mem _ h'

theorem fold_btreeInsert_preserve :
    ∀ (ranges : List LREntry) (l : List BEntry) (e : BEntry), e ∈ l →
      (∀ r ∈ ranges, ¬ r.range.overlaps e.1) →
      e ∈ ranges.foldl (fun t q => btreeInsert q.range (some q.index) t) l
  | [], l, e, hmem, _ => hmem
  | r :: rest, l, e, hmem, h => by
    rw [List.foldl_cons]
    exact fold_btreeInsert_preserve rest _ e
      (btreeInsert_preserve _ (h r (List.mem_cons_self _ _)) l hmem)
      (fun q hq => h q (List.mem_cons_of_mem _ hq))

theorem fold_btreeInsert_mem :
    ∀ (ranges : List LREntry) (l : List BEntry) (r : LREntry), r ∈ ranges →
      lrSorted ranges →
      (r.range, some r.index) ∈
        ranges.foldl (fun t q => btreeInsert q.range (some q.index) t) l
  | r0 :: rest, l, r, hmem, hs => by
    rw [lrSorted, List.pairwise_cons] at hs
    rw [List.foldl_cons]
    rcases List.mem_cons.mp hmem with rfl | h'
    · refine fold_btreeInsert_preserve rest _ _ (btreeInsert_self _ _ l) ?_
      intro q hq
      have := hs.1 q hq
      unfold CodeRange.overlaps
      dsimp only
      omega
    · exact fold_btreeInsert_mem rest _ r h' hs.2

theorem specFold_init_cons_done_ne {st : IonState} {c : Option Nat} {q : CodeRange × BEntry}
    {rest : List (CodeRange × BEntry)} {acc' : ProbeAcc}
    (h : specFold st c (q :: rest) ⟨[], [], 0, none⟩ = .done acc') : acc'.conflicts ≠ [] := by
  obtain ⟨key, e⟩ := q
  rw [specFold_cons] at h
  split at h
  case _ acc2 hstep =>
    unfold specStep at hstep
    split at hstep
    · cases hstep
    · split at hstep
      · cases hstep
      case _ acc3 hrc =>
        cases hstep
        unfold recordConflict at hrc
        rw [if_neg (by simp)] at hrc
        dsimp only at hrc
        split at hrc
        · split at hrc
          · cases hrc
          · cases hrc
            obtain ⟨suf, hsuf⟩ := specFold_done_conflicts h
            rw [hsuf, setFirst_conflicts]
            simp
        · cases hrc
          obtain ⟨suf, hsuf⟩ := specFold_done_conflicts h
          rw [hsuf, setFirst_conflicts]
          simp
  · cases h
  · cases h

/-- C1: try_to_allocate_bundle_to_reg returns Allocated exactly when no
entry of the PReg's allocation map overlaps any range of the bundle, and
in that case the bundle's allocation is set to the register and every
bundle range is inserted into the map keyed by that range.  Stated for a
bundle with a non-empty well-formed sorted range list against a
well-formed map. -/
theorem claim_C1_allocated (st : IonState) (bundle reg : Nat) (c : Option Nat)
    (hb : bundle < st.bundles.length) (hp : reg < st.pregs.length)
    (hbs : sortedNO (st.preg reg).allocations) (hbw : entriesWF (st.preg reg).allocations)
    (hls : lrSorted (st.bundle bundle).ranges) (hlw : lrWF (st.bundle bundle).ranges)
    (_hne : (st.bundle bundle).ranges ≠ []) :
    ((tryToAllocateBundleToReg st bundle reg c).1 = .Allocated (.regA reg) ↔
      ∀ r ∈ (st.bundle bundle).ranges, ∀ e ∈ (st.preg reg).allocations,
        ¬ r.range.overlaps e.1) ∧
    ((tryToAllocateBundleToReg st bundle reg c).1 = .Allocated (.regA reg) →
      ((tryToAllocateBundleToReg st bundle reg c).2.bundle bundle).allocation = .regA reg ∧
      ∀ r ∈ (st.bundle bundle).ranges,
        (r.range, some r.index) ∈
          ((tryToAllocateBundleToReg st bundle reg c).2.preg reg).allocations) := by
  have hrw := tryAlloc_probe_eq st bundle reg c hbs hbw hls hlw
  unfold tryToAllocateBundleToReg
  dsimp only
  rw [hrw]
  cases hsf : specFold st c (conflictPairs (st.bundle bundle).ranges
      (st.preg reg).allocations) ⟨[], [], 0, none⟩ with
  | fixedRes w p =>
    dsimp only
    refine ⟨⟨fun h => (nomatch h), fun hno => ?_⟩, fun h => (nomatch h)⟩
    rw [conflictPairs_eq_nil.mpr hno] at hsf
    cases hsf
  | highRes =>
    dsimp only
    refine ⟨⟨fun h => (nomatch h), fun hno => ?_⟩, fun h => (nomatch h)⟩
    rw [conflictPairs_eq_nil.mpr hno] at hsf
    cases hsf
  | done acc' =>
    dsimp only
    by_cases hc : acc'.conflicts = []
    · rw [if_neg (not_not_intro hc)]
      dsimp only
      refine ⟨⟨fun _ => ?_, fun _ => rfl⟩, fun _ => ⟨?_, ?_⟩⟩
      · by_contra hcon
        cases hcp : conflictPairs (st.bundle bundle).ranges (st.preg reg).allocations with
        | nil => exact hcon (conflictPairs_eq_nil.mp hcp)
        | cons q rest' =>
          rw [hcp] at hsf
          exact specFold_init_cons_done_ne hsf hc
      · rw [bundle_setPreg, bundle_setBundle_self st bundle _ hb]
      · intro r hr
        have hp2 : reg <
            (st.setBundle bundle fun b => { b with allocation := Alloc.regA reg
              }).pregs.length := hp
        rw [preg_setPreg_self _ reg _ hp2]
        dsimp only
        rw [preg_setBundle]
        exact fold_btreeInsert_mem _ _ r hr hls
    · rw [if_pos hc]
      dsimp only
      refine ⟨⟨fun h => (nomatch h), fun hno => ?_⟩, fun h => (nomatch h)⟩
      rw [conflictPairs_eq_nil.mpr hno] at hsf
      cases hsf
      exact absurd rfl hc

theorem claim_C1_witness :
    (tryToAllocateBundleToReg exStFree 0 0 none).1 = .Allocated (.regA 0) :=
  (claim_C1_allocated exStFree 0 0 none (by decide) (by decide) (by decide) (by decide)
    (by decide) (by decide) (by decide)).1.mpr (by decide)

/-! ## C5: the ConflictHighCost characterization -/

theorem rc_none_ne_none (st : IonState) (acc : ProbeAcc) (cb p : Nat) :
    recordConflict st none acc cb p ≠ none := by
  unfold recordConflict
  split
  · exact fun h => (nomatch h)
  · exact fun h => (nomatch h)

theorem specFold_none_ne_high (st : IonState) :
    ∀ (l : List (CodeRange × BEntry)) (acc : ProbeAcc), specFold st none l acc ≠ .highRes
  | [], acc => fun h => nomatch h
  | (key, e) :: rest, acc => by
    rw [specFold_cons]
    intro h
    split at h
    case _ acc2 _ => exact specFold_none_ne_high st rest acc2 h
    · cases h
    case _ hstep =>
      unfold specStep at hstep
      split at hstep
      · cases hstep
      · split at hstep
        case _ hrc => exact rc_none_ne_none st acc _ _ hrc
        · cases hstep

theorem rc_new_facts {st : IonState} {cv : Nat} {acc : ProbeAcc} {cb p : Nat}
    (hmem : cb ∉ acc.conflictSet)
    (hsmall : ¬ cv < max acc.maxW (st.bundleSpillWeight cb)) :
    ∃ acc2, recordConflict st (some cv) acc cb p = some acc2 ∧
      acc2.conflictSet = cb :: acc.conflictSet ∧
      acc2.maxW = max acc.maxW (st.bundleSpillWeight cb) ∧
      acc2.conflicts = acc.conflicts ++ [cb] := by
  refine ⟨setFirst { acc with
      conflicts := acc.conflicts ++ [cb],
      conflictSet := cb :: acc.conflictSet,
      maxW := max acc.maxW (st.bundleSpillWeight cb) } p, ?_, ?_, ?_, ?_⟩
  · unfold recordConflict
    rw [if_neg (by simpa using hmem)]
    dsimp only
    rw [if_neg hsmall]
  · rw [setFirst_conflictSet]
  · rw [setFirst_maxW]
  · rw [setFirst_conflicts]

theorem specFold_high_iff (st : IonState) (cv : Nat) :
    ∀ (l : List (CodeRange × BEntry)) (acc : ProbeAcc),
      (∀ cb ∈ acc.conflictSet, st.bundleSpillWeight cb ≤ acc.maxW) → acc.maxW ≤ cv →
      (specFold st (some cv) l acc = .highRes ↔
        ∃ l1 l2, l = l1 ++ l2 ∧ pairsAllValid l1 ∧
          cv < (l1.map (pairWeight st)).foldl max acc.maxW)
  | [], acc, hinv, hle => by
    constructor
    · intro h
      cases h
    · rintro ⟨l1, l2, hsplit, hval, hgt⟩
      have h0 : l1 = [] := (List.append_eq_nil.mp hsplit.symm).1
      subst h0
      simp at hgt
      omega
  | (key, e) :: rest, acc, hinv, hle => by
    rw [specFold_cons]
    cases he2 : e.2 with
    | none =>
      have hstep : specStep st (some cv) acc key e = .fixedS acc.maxW e.1.from_ := by
        unfold specStep
        rw [he2]
      rw [hstep]
      dsimp only
      constructor
      · intro h
        cases h
      · rintro ⟨l1, l2, hsplit, hval, hgt⟩
        cases l1 with
        | nil =>
          simp at hgt
          omega
        | cons q l1' =>
          exfalso
          rw [List.cons_append] at hsplit
          injection hsplit with hq hrest
          have hv := hval q (List.mem_cons_self _ _)
          rw [← hq] at hv
          exact hv (by dsimp only; rw [he2])
    | some lr =>
      have hpv : ((key, e) : CodeRange × BEntry).2.2 ≠ none := by
        dsimp only
        rw [he2]
        exact fun hx => (nomatch hx)
      have hpw : pairWeight st (key, e) = st.bundleSpillWeight (st.lrange lr).bundle := by
        unfold pairWeight pairBundle
        dsimp only
        rw [he2]
        rfl
      by_cases hmem : (st.lrange lr).bundle ∈ acc.conflictSet
      · have hrc : recordConflict st (some cv) acc (st.lrange lr).bundle
            (max e.1.from_ key.from_) = some (setFirst acc (max e.1.from_ key.from_)) := by
          unfold recordConflict
          rw [if_pos (by simpa using hmem)]
        have hstep : specStep st (some cv) acc key e =
            .cont (setFirst acc (max e.1.from_ key.from_)) := by
          unfold specStep
          rw [he2]
          dsimp only
          rw [hrc]
        rw [hstep]
        dsimp only
        have hw : st.bundleSpillWeight (st.lrange lr).bundle ≤ acc.maxW := hinv _ hmem
        rw [specFold_high_iff st cv rest (setFirst acc (max e.1.from_ key.from_))
          (by rw [setFirst_conflictSet, setFirst_maxW]; exact hinv)
          (by rw [setFirst_maxW]; exact hle)]
        constructor
        · rintro ⟨l1, l2, hsplit, hval, hgt⟩
          refine ⟨(key, e) :: l1, l2, by rw [hsplit, List.cons_append], ?_, ?_⟩
          · intro q hq
            rcases List.mem_cons.mp hq with rfl | hq'
            · exact hpv
            · exact hval q hq'
          · rw [List.map_cons, List.foldl_cons, hpw, max_eq_left hw]
            rw [setFirst_maxW] at hgt
            exact hgt
        · rintro ⟨l1, l2, hsplit, hval, hgt⟩
          cases l1 with
          | nil =>
            exfalso
            simp at hgt
            omega
          | cons q l1' =>
            rw [List.cons_append] at hsplit
            injection hsplit with hq hrest
            refine ⟨l1', l2, hrest, fun q' hq' => hval q' (List.mem_cons_of_mem _ hq'), ?_⟩
            rw [setFirst_maxW]
            rw [← hq, List.map_cons, List.foldl_cons, hpw, max_eq_left hw] at hgt
            exact hgt
      · by_cases hbig : cv < max acc.maxW (st.bundleSpillWeight (st.lrange lr).bundle)
        · have hrc : recordConflict st (some cv) acc (st.lrange lr).bundle
              (max e.1.from_ key.from_) = none := by
            unfold recordConflict
            rw [if_neg (by simpa using hmem)]
            dsimp only
            rw [if_pos hbig]
          have hstep : specStep st (some cv) acc key e = .highS := by
            unfold specStep
            rw [he2]
            dsimp only
            rw [hrc]
          rw [hstep]
          dsimp only
          constructor
          · intro _
            refine ⟨[(key, e)], rest, rfl, ?_, ?_⟩
            · intro q hq
              rw [List.mem_singleton] at hq
              subst hq
              exact hpv
            · rw [List.map_cons, List.map_nil, List.foldl_cons, List.foldl_nil, hpw]
              exact hbig
          · intro _
            rfl
        · obtain ⟨acc2, hrc, hset2, hmax2, hconf2⟩ :=
            rc_new_facts (p := max e.1.from_ key.from_) hmem hbig
          have hstep : specStep st (some cv) acc key e = .cont acc2 := by
            unfold specStep
            rw [he2]
            dsimp only
            rw [hrc]
          rw [hstep]
          dsimp only
          have hinv2 : ∀ cb2 ∈ acc2.conflictSet, st.bundleSpillWeight cb2 ≤ acc2.maxW := by
            intro b hb
            rw [hset2] at hb
            rw [hmax2]
            rcases List.mem_cons.mp hb with rfl | hb'
            · exact le_max_right _ _
            · exact le_trans (hinv b hb') (le_max_left _ _)
          have hle2 : acc2.maxW ≤ cv := by
            rw [hmax2]
            omega
          rw [specFold_high_iff st cv rest acc2 hinv2 hle2]
          constructor
          · rintro ⟨l1, l2, hsplit, hval, hgt⟩
            refine ⟨(key, e) :: l1, l2, by rw [hsplit, List.cons_append], ?_, ?_⟩
            · intro q hq
              rcases List.mem_cons.mp hq with rfl | hq'
              · exact hpv
              · exact hval q hq'
            · rw [List.map_cons, List.foldl_cons, hpw, ← hmax2]
              exact hgt
          · rintro ⟨l1, l2, hsplit, hval, hgt⟩
            cases l1 with
            | nil =>
              exfalso
              simp at hgt
              omega
            | cons q l1' =>
              rw [List.cons_append] at hsplit
              injection hsplit with hq hrest
              refine ⟨l1', l2, hrest, fun q' hq' => hval q' (List.mem_cons_of_mem _ hq'), ?_⟩
              rw [← hq, List.map_cons, List.foldl_cons, hpw, ← hmax2] at hgt
              exact hgt

/-- C5: with max_allowable_cost = Some cv, try_to_allocate_bundle_to_reg
returns ConflictHighCost exactly when some prefix of the overlapping
pairs, containing no fixed reservation, pushes the running maximum of
the distinct conflicting bundles' cached spill weights strictly above
cv; with max_allowable_cost = None it never returns ConflictHighCost. -/
theorem claim_C5_high_cost (st : IonState) (bundle reg : Nat) (cv : Nat)
    (hbs : sortedNO (st.preg reg).allocations) (hbw : entriesWF (st.preg reg).allocations)
    (hls : lrSorted (st.bundle bundle).ranges) (hlw : lrWF (st.bundle bundle).ranges) :
    ((tryToAllocateBundleToReg st bundle reg (some cv)).1 = .ConflictHighCost ↔
      ∃ l1 l2,
        conflictPairs (st.bundle bundle).ranges (st.preg reg).allocations = l1 ++ l2 ∧
        pairsAllValid l1 ∧ cv < maxPairWeight st l1) ∧
    (tryToAllocateBundleToReg st bundle reg none).1 ≠ .ConflictHighCost := by
  constructor
  · have hrw := tryAlloc_probe_eq st bundle reg (some cv) hbs hbw hls hlw
    have hiff := specFold_high_iff st cv
      (conflictPairs (st.bundle bundle).ranges (st.preg reg).allocations) ⟨[], [], 0, none⟩
      (fun b hb => absurd hb (List.not_mem_nil b)) (Nat.zero_le cv)
    unfold tryToAllocateBundleToReg
    dsimp only
    rw [hrw]
    cases hsf : specFold st (some cv) (conflictPairs (st.bundle bundle).ranges
        (st.preg reg).allocations) ⟨[], [], 0, none⟩ with
    | fixedRes w p =>
      dsimp only
      refine ⟨fun h => (nomatch h), fun hex => ?_⟩
      have := hiff.mpr hex
      rw [hsf] at this
      exact (nomatch this)
    | highRes =>
      dsimp only
      exact ⟨fun _ => hiff.mp hsf, fun _ => rfl⟩
    | done acc' =>
      dsimp only
      split
      · refine ⟨fun h => (nomatch h), fun hex => ?_⟩
        have := hiff.mpr hex
        rw [hsf] at this
        exact (nomatch this)
      · refine ⟨fun h => (nomatch h), fun hex => ?_⟩
        have := hiff.mpr hex
        rw [hsf] at this
        exact (nomatch this)
  · have hrwn := tryAlloc_probe_eq st bundle reg none hbs hbw hls hlw
    unfold tryToAllocateBundleToReg
    dsimp only
    rw [hrwn]
    cases hsf : specFold st none (conflictPairs (st.bundle bundle).ranges
        (st.preg reg).allocations) ⟨[], [], 0, none⟩ with
    | fixedRes w p =>
      dsimp only
      exact fun h => (nomatch h)
    | highRes => exact absurd hsf (specFold_none_ne_high st _ _)
    | done acc' =>
      dsimp only
      split
      · exact fun h => (nomatch h)
      · exact fun h => (nomatch h)

theorem claim_C5_witness :
    ((tryToAllocateBundleToReg exSt 0 0 (some 3)).1 = .ConflictHighCost ↔
      ∃ l1 l2, conflictPairs (exSt.bundle 0).ranges (exSt.preg 0).allocations = l1 ++ l2 ∧
        pairsAllValid l1 ∧ 3 < maxPairWeight exSt l1) ∧
    (tryToAllocateBundleToReg exSt 0 0 none).1 ≠ .ConflictHighCost :=
  claim_C5_high_cost exSt 0 0 3 (by decide) (by decide) (by decide) (by decide)

/-! ## C6: the Conflict result characterization -/

theorem specFold_done_valid {st : IonState} {c : Option Nat} :
    ∀ {l : List (CodeRange × BEntry)} {acc acc' : ProbeAcc},
      specFold st c l acc = .done acc' → pairsAllValid l
  | [], _, _, _ => fun q hq => absurd hq (List.not_mem_nil q)
  | (key, e) :: rest, acc, acc', h => by
    rw [specFold_cons] at h
    split at h
    case _ acc2 hstep =>
      intro q hq
      rcases List.mem_cons.mp hq with rfl | hq'
      · dsimp only
        intro hnone
        unfold specStep at hstep
        rw [hnone] at hstep
        dsimp only at hstep
        cases hstep
      · exact specFold_done_valid h q hq'
    · cases h
    · cases h

theorem rc_some_old_shape {st : IonState} {c : Option Nat} {acc acc2 : ProbeAcc} {cb p : Nat}
    (hmem : cb ∈ acc.conflictSet) (hrc : recordConflict st c acc cb p = some acc2) :
    acc2.conflictSet = acc.conflictSet ∧ acc2.conflicts = acc.conflicts := by
  unfold recordConflict at hrc
  rw [if_pos (by simpa using hmem)] at hrc
  cases hrc
  rw [setFirst_conflictSet, setFirst_conflicts]
  exact ⟨rfl, rfl⟩

theorem rc_some_new_shape {st : IonState} {c : Option Nat} {acc acc2 : ProbeAcc} {cb p : Nat}
    (hmem : cb ∉ acc.conflictSet) (hrc : recordConflict st c acc cb p = some acc2) :
    acc2.conflictSet = cb :: acc.conflictSet ∧ acc2.conflicts = acc.conflicts ++ [cb] := by
  unfold recordConflict at hrc
  rw [if_neg (by simpa using hmem)] at hrc
  dsimp only at hrc
  split at hrc
  · split at hrc
    · cases hrc
    · cases hrc
      rw [setFirst_conflictSet, setFirst_conflicts]
      exact ⟨rfl, rfl⟩
  · cases hrc
    rw [setFirst_conflictSet, setFirst_conflicts]
    exact ⟨rfl, rfl⟩

theorem specFold_conflicts_char {st : IonState} {c : Option Nat} :
    ∀ {l : List (CodeRange × BEntry)} {acc acc' : ProbeAcc},
      (∀ b, b ∈ acc.conflictSet ↔ b ∈ acc.conflicts) →
      specFold st c l acc = .done acc' →
      acc'.conflicts = (l.map (pairBundle st)).foldl
        (fun cl b => if b ∈ cl then cl else cl ++ [b]) acc.conflicts
  | [], acc, acc', _, h => by
    cases h
    rfl
  | (key, e) :: rest, acc, acc', hiff, h => by
    rw [specFold_cons] at h
    split at h
    case _ acc2 hstep =>
      rw [List.map_cons, List.foldl_cons]
      unfold specStep at hstep
      cases he2 : e.2 with
      | none =>
        rw [he2] at hstep
        dsimp only at hstep
        cases hstep
      | some lr =>
        rw [he2] at hstep
        dsimp only at hstep
        cases hrc : recordConflict st c acc (st.lrange lr).bundle
            (max e.1.from_ key.from_) with
        | none =>
          rw [hrc] at hstep
          cases hstep
        | some acc3 =>
          rw [hrc] at hstep
          cases hstep
          have hb0 : pairBundle st (key, e) = (st.lrange lr).bundle := by
            unfold pairBundle
            dsimp only
            rw [he2]
            rfl
          rw [hb0]
          by_cases hmem : (st.lrange lr).bundle ∈ acc.conflicts
          · rw [if_pos hmem]
            obtain ⟨hset3, hconf3⟩ := rc_some_old_shape ((hiff _).mpr hmem) hrc
            have hiff3 : ∀ b, b ∈ acc2.conflictSet ↔ b ∈ acc2.conflicts := by
              intro b
              rw [hset3, hconf3]
              exact hiff b
            rw [specFold_conflicts_char hiff3 h, hconf3]
          · rw [if_neg hmem]
            obtain ⟨hset3, hconf3⟩ :=
              rc_some_new_shape (fun hx => hmem ((hiff _).mp hx)) hrc
            have hiff3 : ∀ b, b ∈ acc2.conflictSet ↔ b ∈ acc2.conflicts := by
              intro b
              rw [hset3, hconf3, List.mem_cons, List.mem_append, List.mem_singleton, hiff b]
              exact or_comm
            rw [specFold_conflicts_char hiff3 h, hconf3]
    · cases h
    · cases h

theorem setFirst_first_some {acc : ProbeAcc} {q : Nat} (h : acc.firstConflict = some q)
    (p : Nat) : (setFirst acc p).firstConflict = some q := by
  unfold setFirst
  rw [h]
  exact h

theorem setFirst_first_none {acc : ProbeAcc} (h : acc.firstConflict = none) (p : Nat) :
    (setFirst acc p).firstConflict = some p := by
  unfold setFirst
  rw [h]

theorem rc_first_keep {st : IonState} {c : Option Nat} {acc acc2 : ProbeAcc} {cb p q : Nat}
    (hq : acc.firstConflict = some q) (hrc : recordConflict st c acc cb p = some acc2) :
    acc2.firstConflict = some q := by
  unfold recordConflict at hrc
  split at hrc
  · cases hrc
    exact setFirst_first_some hq p
  · dsimp only at hrc
    split at hrc
    · split at hrc
      · cases hrc
      · cases hrc
        refine setFirst_first_some ?_ p
        exact hq
    · cases hrc
      refine setFirst_first_some ?_ p
      exact hq

theorem rc_first_set {st : IonState} {c : Option Nat} {acc acc2 : ProbeAcc} {cb p : Nat}
    (hn : acc.firstConflict = none) (hrc : recordConflict st c acc cb p = some acc2) :
    acc2.firstConflict = some p := by
  unfold recordConflict at hrc
  split at hrc
  · cases hrc
    exact setFirst_first_none hn p
  · dsimp only at hrc
    split at hrc
    · split at hrc
      · cases hrc
      · cases hrc
        refine setFirst_first_none ?_ p
        exact hn
    · cases hrc
      refine setFirst_first_none ?_ p
      exact hn

theorem specFold_first_keep {st : IonState} {c : Option Nat} :
    ∀ {l : List (CodeRange × BEntry)} {acc acc' : ProbeAcc} {q : Nat},
      acc.firstConflict = some q → specFold st c l acc = .done acc' →
      acc'.firstConflict = some q
  | [], acc, acc', q, hq, h => by
    cases h
    exact hq
  | (key, e) :: rest, acc, acc', q, hq, h => by
    rw [specFold_cons] at h
    split at h
    case _ acc2 hstep =>
      unfold specStep at hstep
      split at hstep
      · cases hstep
      · split at hstep
        · cases hstep
        case _ acc3 hrc =>
          cases hstep
          exact specFold_first_keep (rc_first_keep hq hrc) h
    · cases h
    · cases h

theorem specFold_first_head {st : IonState} {c : Option Nat} {key : CodeRange} {e : BEntry}
    {rest : List (CodeRange × BEntry)} {acc acc' : ProbeAcc}
    (hn : acc.firstConflict = none)
    (h : specFold st c ((key, e) :: rest) acc = .done acc') :
    acc'.firstConflict = some (pairPoint (key, e)) := by
  rw [specFold_cons] at h
  split at h
  case _ acc2 hstep =>
    unfold specStep at hstep
    split at hstep
    · cases hstep
    · split at hstep
      · cases hstep
      case _ lr heq acc3 hrc =>
        cases hstep
        have hfirst : acc2.firstConflict = some (max e.1.from_ key.from_) :=
          rc_first_set hn hrc
        have hpt : pairPoint (key, e) = max e.1.from_ key.from_ := rfl
        rw [hpt]
        exact specFold_first_keep hfirst h
  · cases h
  · cases h

theorem firstOccur_loop_mem :
    ∀ (l init : List Nat) (b : Nat),
      b ∈ l.foldl (fun cl x => if x ∈ cl then cl else cl ++ [x]) init ↔ b ∈ init ∨ b ∈ l
  | [], init, b => by simp
  | x :: rest, init, b => by
    rw [List.foldl_cons, firstOccur_loop_mem rest _ b]
    by_cases hx : x ∈ init
    · rw [if_pos hx]
      constructor
      · rintro (h | h)
        · exact Or.inl h
        · exact Or.inr (List.mem_cons_of_mem _ h)
      · rintro (h | h)
        · exact Or.inl h
        · rcases List.mem_cons.mp h with rfl | h'
          · exact Or.inl hx
          · exact Or.inr h'
    · rw [if_neg hx]
      constructor
      · rintro (h | h)
        · rcases List.mem_append.mp h with h' | h'
          · exact Or.inl h'
          · rw [List.mem_singleton] at h'
            subst h'
            exact Or.inr (List.mem_cons_self _ _)
        · exact Or.inr (List.mem_cons_of_mem _ h)
      · rintro (h | h)
        · exact Or.inl (List.mem_append.mpr (Or.inl h))
        · rcases List.mem_cons.mp h with rfl | h'
          · exact Or.inl (List.mem_append.mpr (Or.inr (List.mem_singleton.mpr rfl)))
          · exact Or.inr h'

theorem firstOccur_loop_nodup :
    ∀ (l init : List Nat), init.Nodup →
      (l.foldl (fun cl x => if x ∈ cl then cl else cl ++ [x]) init).Nodup
  | [], _, hnd => hnd
  | x :: rest, init, hnd => by
    rw [List.foldl_cons]
    by_cases hx : x ∈ init
    · rw [if_pos hx]
      exact firstOccur_loop_nodup rest init hnd
    · rw [if_neg hx]
      refine firstOccur_loop_nodup rest _ ?_
      refine List.Nodup.append hnd (List.nodup_singleton x) ?_
      intro a ha ha'
      rw [List.mem_singleton] at ha'
      subst ha'
      exact hx ha

theorem firstOccur_nodup (l : List Nat) : (firstOccur l).Nodup :=
  firstOccur_loop_nodup l [] List.nodup_nil

theorem firstOccur_mem (l : List Nat) (b : Nat) : b ∈ firstOccur l ↔ b ∈ l := by
  unfold firstOccur
  rw [firstOccur_loop_mem]
  simp

theorem conflictPairs_pairPoint_sorted (btree : List BEntry) (hbs : sortedNO btree)
    (hbw : entriesWF btree) :
    ∀ (rs : List LREntry), lrSorted rs → lrWF rs →
      (conflictPairs rs btree).Pairwise fun a b => pairPoint a ≤ pairPoint b
  | [], _, _ => List.Pairwise.nil
  | r :: rs', hls, hlw => by
    rw [lrSorted, List.pairwise_cons] at hls
    have hr : r.range.from_ < r.range.to_ := hlw r (List.mem_cons_self _ _)
    rw [conflictPairs_cons, List.pairwise_append]
    refine ⟨?_, conflictPairs_pairPoint_sorted btree hbs hbw rs' hls.2
      (fun q hq => hlw q (List.mem_cons_of_mem _ hq)), ?_⟩
    · unfold rangePairs
      rw [List.pairwise_map]
      have hfs : (btree.filter fun e => decide (r.range.overlaps e.1)).Pairwise
          (fun a b => a.1.to_ ≤ b.1.from_) :=
        List.Pairwise.sublist (List.filter_sublist btree) hbs
      refine List.Pairwise.imp_of_mem ?_ hfs
      intro e1 e2 he1 he2 hle
      have hw1 : e1.1.from_ < e1.1.to_ := hbw e1 (List.mem_of_mem_filter he1)
      unfold pairPoint
      dsimp only
      omega
    · intro a ha b hb
      obtain ⟨ha1, ha2, ha3⟩ := rangePairs_mem ha
      obtain ⟨r2, hr2, hb1, hb2, hb3⟩ := conflictPairs_mem hb
      have h12 : r.range.to_ ≤ r2.range.from_ := hls.1 r2 hr2
      unfold CodeRange.overlaps at ha3 hb3
      unfold pairPoint
      rw [ha1, hb1]
      omega

/-- C6: when try_to_allocate_bundle_to_reg returns Conflict(bundles,
first_point), the bundle list is the deduplicated sequence of conflicting
bundles in first-encounter traversal order (hence without duplicates, and
containing exactly the bundles of the overlapping pairs), and first_point
is the earliest overlap point over all hits, each hit contributing the
later of the two ranges' starts. -/
theorem claim_C6_conflict_result (st : IonState) (bundle reg : Nat) (c : Option Nat)
    (bs : List Nat) (p : Nat)
    (hbs : sortedNO (st.preg reg).allocations) (hbw : entriesWF (st.preg reg).allocations)
    (hls : lrSorted (st.bundle bundle).ranges) (hlw : lrWF (st.bundle bundle).ranges)
    (h : (tryToAllocateBundleToReg st bundle reg c).1 = .Conflict bs p) :
    bs = firstOccur ((conflictPairs (st.bundle bundle).ranges
        (st.preg reg).allocations).map (pairBundle st)) ∧
    bs.Nodup ∧
    (∀ b, b ∈ bs ↔ b ∈ (conflictPairs (st.bundle bundle).ranges
        (st.preg reg).allocations).map (pairBundle st)) ∧
    p ∈ (conflictPairs (st.bundle bundle).ranges (st.preg reg).allocations).map pairPoint ∧
    ∀ q ∈ (conflictPairs (st.bundle bundle).ranges
        (st.preg reg).allocations).map pairPoint, p ≤ q := by
  have hrw := tryAlloc_probe_eq st bundle reg c hbs hbw hls hlw
  unfold tryToAllocateBundleToReg at h
  dsimp only at h
  rw [hrw] at h
  cases hsf : specFold st c (conflictPairs (st.bundle bundle).ranges
      (st.preg reg).allocations) ⟨[], [], 0, none⟩ with
  | fixedRes w pt =>
    rw [hsf] at h
    cases h
  | highRes =>
    rw [hsf] at h
    cases h
  | done acc' =>
    rw [hsf] at h
    dsimp only at h
    split at h
    case _ hcne =>
      dsimp only at h
      injection h with hbs' hp'
      have hchar := specFold_conflicts_char (fun b => Iff.rfl) hsf
      have hfo : acc'.conflicts = firstOccur ((conflictPairs (st.bundle bundle).ranges
          (st.preg reg).allocations).map (pairBundle st)) := hchar
      cases hcp : conflictPairs (st.bundle bundle).ranges (st.preg reg).allocations with
      | nil =>
        exfalso
        rw [hcp] at hchar
        exact hcne (by rw [hchar]; rfl)
      | cons hd tl =>
        rw [hcp] at hfo
        have hfirst : acc'.firstConflict = some (pairPoint hd) := by
          obtain ⟨hk, he⟩ := hd
          rw [hcp] at hsf
          exact specFold_first_head rfl hsf
        have hsorted := conflictPairs_pairPoint_sorted (st.preg reg).allocations hbs hbw
          (st.bundle bundle).ranges hls hlw
        rw [hcp, List.pairwise_cons] at hsorted
        subst hbs'
        subst hp'
        refine ⟨by rw [hfo], by rw [hfo]; exact firstOccur_nodup _,
          fun b => by rw [hfo]; exact firstOccur_mem _ b, ?_, ?_⟩
        · rw [hfirst]
          rw [List.map_cons]
          exact List.mem_cons_self _ _
        · intro q hq
          rw [hfirst]
          rw [List.map_cons] at hq
          rcases List.mem_cons.mp hq with rfl | hq'
          · exact le_refl _
          · obtain ⟨pr, hpr, rfl⟩ := List.mem_map.mp hq'
            exact hsorted.1 pr hpr
    case _ hcne =>
      dsimp only at h
      cases h

theorem claim_C6_witness :
    [1] = firstOccur ((conflictPairs (exSt.bundle 0).ranges
        (exSt.preg 0).allocations).map (pairBundle exSt)) ∧
    ([1] : List Nat).Nodup ∧
    (∀ b, b ∈ [1] ↔ b ∈ (conflictPairs (exSt.bundle 0).ranges
        (exSt.preg 0).allocations).map (pairBundle exSt)) ∧
    2 ∈ (conflictPairs (exSt.bundle 0).ranges (exSt.preg 0).allocations).map pairPoint ∧
    ∀ q ∈ (conflictPairs (exSt.bundle 0).ranges
        (exSt.preg 0).allocations).map pairPoint, 2 ≤ q :=
  claim_C6_conflict_result exSt 0 0 none [1] 2 (by decide) (by decide) (by decide)
    (by decide) (by decide)

end RegAlloc
